import Mathlib

/-!
Shallow embedding of the Partition & Selection Engine of
`src/script.js` (interactive map that partitions the departments of the
Province of Buenos Aires into colored divisions).

Modelling conventions:
* The DOM lists (`#all-departments-list` and each `#division-i`) are the
  engine's source of truth in the JavaScript; here they are plain
  `List String` fields of `AppState` (`mainList` for the pool, one
  `departments` list per division).  `departmentGroups` is kept in sync
  with the DOM by `updateDepartmentGroups`, so the model merges the two
  into the single `groups` field.
* Units are identified by their `nam` property (the JS stores
  `data-dept-name` on every item and keys every lookup by it).
* A SortableJS drag event is modelled by `handleDepartmentMove`:
  the physical DOM mutation made by SortableJS before `onEnd` fires
  (`domMove`, with the `pull: 'clone'` behaviour of the main list),
  then the `onEnd` handler itself, then the deferred `sortMainList`
  that the main list's `onAdd` callback schedules when an element is
  dragged into it from another list.
* `localeCompare` on upper-cased names is embedded as `≤` on
  upper-cased strings.
* JavaScript numbers are embedded as `Rat`; the truthiness test
  `if (x)` on a number is `x ≠ 0`, on a string `x ≠ ""`, and on a
  possibly-missing object `Option.isSome`.
-/

namespace DesarmaBA

/-- A department feature of `PBA.geojson`: display name `nam`, unique
code `cde`, and the spatial extent that Leaflet exposes through
`layer.getBounds()` (an axis-aligned bounding box). -/
structure DeptFeature where
  nam : String
  cde : String
  minLat : Rat
  minLng : Rat
  maxLat : Rat
  maxLng : Rat
deriving DecidableEq

/-- A geographic point, as Leaflet's `LatLng`. -/
structure LatLng where
  lat : Rat
  lng : Rat
deriving DecidableEq

/-- An axis-aligned bounding box, as Leaflet's `LatLngBounds`. -/
structure Bounds where
  minLat : Rat
  minLng : Rat
  maxLat : Rat
  maxLng : Rat
deriving DecidableEq

/-- `LatLngBounds.contains(point)`: inclusive containment test. -/
def Bounds.containsPoint (b : Bounds) (p : LatLng) : Bool :=
  decide (b.minLat ≤ p.lat ∧ p.lat ≤ b.maxLat ∧ b.minLng ≤ p.lng ∧ p.lng ≤ b.maxLng)

/-- `LatLngBounds.intersects(other)`: the two boxes share at least one
point (inclusive overlap on both axes). -/
def Bounds.intersects (b c : Bounds) : Bool :=
  decide (c.maxLat ≥ b.minLat ∧ c.minLat ≤ b.maxLat ∧ c.maxLng ≥ b.minLng ∧ c.minLng ≤ b.maxLng)

/-- `LatLngBounds.getCenter()`: midpoint of the box. -/
def Bounds.center (b : Bounds) : LatLng :=
  ⟨(b.minLat + b.maxLat) / 2, (b.minLng + b.maxLng) / 2⟩

/-- The bounding box of a department layer (`layer.getBounds()`). -/
def DeptFeature.bounds (d : DeptFeature) : Bounds :=
  ⟨d.minLat, d.minLng, d.maxLat, d.maxLng⟩

/-- Bounding box of the drawn polygon's vertices
(`L.polygon(polygonPoints).getBounds()`).  The empty case never occurs
(`finalizePolygon` requires at least 3 points). -/
def polygonBounds : List LatLng → Bounds
  | [] => ⟨0, 0, 0, 0⟩
  | p :: ps =>
    ps.foldl (fun b q => ⟨min b.minLat q.lat, min b.minLng q.lng, max b.maxLat q.lat, max b.maxLng q.lng⟩)
      ⟨p.lat, p.lng, p.lat, p.lng⟩

/-- One division box: `departmentGroups[i] = { color, departments, name }`. -/
structure DivGroup where
  color : String
  departments : List String
  name : String
deriving DecidableEq

/-- The engine state: the main list (pool) of department names in
display order, the division boxes (`groups[i]` is división `i+1`), and
the polygon selection. -/
structure AppState where
  mainList : List String
  groups : List DivGroup
  selectedDepartments : List String
deriving DecidableEq

/-- Destination/origin of a drag: the main list or a 1-based division id
(the DOM ids `all-departments-list` and `division-i`). -/
inductive Loc where
  | mainList : Loc
  | division : Nat → Loc
deriving DecidableEq

/-- The 12-color palette `divisionColors` of `script.js`. -/
def divisionColors : List String :=
  ["#1f77b4", "#ff7f0e", "#2ca02c", "#d62728", "#9467bd", "#8c564b",
   "#e377c2", "#7f7f7f", "#bcbd22", "#17becf", "#9edae5", "#ff9896"]

/-- Map over the division boxes together with their 0-based position
(the JS loops run over the 1-based division ids `i = pos + 1`). -/
def mapDivisions (f : Nat → DivGroup → DivGroup) : Nat → List DivGroup → List DivGroup
  | _, [] => []
  | i, g :: gs => f i g :: mapDivisions f (i + 1) gs

/-- Remove every item carrying a given `data-dept-name` from a list
(the `items.forEach(... item.remove())` pattern). -/
def removeItems (n : String) (l : List String) : List String :=
  l.filter (fun m => m ≠ n)

/-- Insert an element at a drop position (clamped to the end), as the
DOM insertion performed by SortableJS. -/
def insertItem (idx : Nat) (n : String) (l : List String) : List String :=
  l.take idx ++ [n] ++ l.drop idx

/-- `String.prototype.toUpperCase` on one character, at the ASCII code
points that occur in the department names. -/
def upperChar (c : Char) : Char :=
  if 97 ≤ c.toNat ∧ c.toNat ≤ 122 then Char.ofNat (c.toNat - 32) else c

/-- Lexicographic code-point comparison of two character sequences, the
order `localeCompare` realises on the department names. -/
def lexLe : List Char → List Char → Bool
  | [], _ => true
  | _ :: _, [] => false
  | a :: as, b :: bs =>
    if a.toNat < b.toNat then true
    else if a.toNat = b.toNat then lexLe as bs
    else false

/-- Comparison used by `sortMainList` and the GeoJSON load:
`a.toUpperCase().localeCompare(b.toUpperCase()) ≤ 0`. -/
def nameLe (a b : String) : Bool :=
  lexLe (a.data.map upperChar) (b.data.map upperChar)

/-- `sortMainList()`: re-order the main list by upper-cased name
(stable, as `Array.prototype.sort`). -/
def sortMainList (st : AppState) : AppState :=
  { st with mainList := st.mainList.mergeSort nameLe }

/-- `removeDepartmentFromMainList(departmentName)`. -/
def removeDepartmentFromMainList (n : String) (st : AppState) : AppState :=
  { st with mainList := removeItems n st.mainList }

/-- `removeDepartmentFromAllDivisions(departmentName, exceptDivisionId)`:
delete the department from every division whose 1-based id differs from
the exception. -/
def removeDepartmentFromAllDivisions (n : String) (except : Option Nat) (st : AppState) : AppState :=
  let f := fun (i : Nat) (g : DivGroup) =>
    if except = some (i + 1) then g
    else { g with departments := removeItems n g.departments }
  { st with groups := mapDivisions f 0 st.groups }

/-- `returnDepartmentToMainList(departmentName)`: append the item to the
main list, then sort it. -/
def returnDepartmentToMainList (n : String) (st : AppState) : AppState :=
  sortMainList { st with mainList := st.mainList ++ [n] }

/-- The division box with 1-based id `g`, when it exists
(`document.getElementById('division-' + g)`). -/
def getDivision (st : AppState) (g : Nat) : Option DivGroup :=
  if 1 ≤ g then st.groups[g - 1]? else none

/-- Append a department at the end of division `g` (1-based); a no-op
when the division does not exist (the `if (divisionList)` null check). -/
def appendToDivision (g : Nat) (n : String) (st : AppState) : AppState :=
  let f := fun (i : Nat) (gr : DivGroup) =>
    if g = i + 1 then { gr with departments := gr.departments ++ [n] } else gr
  { st with groups := mapDivisions f 0 st.groups }

/-- `getDepartmentGroupId` / `isDepartmentInDivision`: the first division
containing the department, else the main list (pool). -/
def locationOf (n : String) (st : AppState) : Loc :=
  match st.groups.findIdx? (fun g => g.departments.contains n) with
  | some i => .division (i + 1)
  | none => .mainList

/-- The physical DOM mutation SortableJS performs before `onEnd` fires:
the dragged element leaves its source list and lands at the drop
position of the target list — except that the main list has
`pull: 'clone'`, so dragging out of it leaves the original in place. -/
def domMove (n : String) (fromLoc toLoc : Loc) (idx : Nat) (st : AppState) : AppState :=
  let eraseDiv := fun (i : Nat) (k : Nat) (g : DivGroup) =>
    if i = k + 1 then { g with departments := g.departments.erase n } else g
  let insertDiv := fun (j : Nat) (k : Nat) (g : DivGroup) =>
    if j = k + 1 then { g with departments := insertItem idx n g.departments } else g
  let erased : AppState :=
    match fromLoc, toLoc with
    | .mainList, .division _ => st
    | .mainList, .mainList => { st with mainList := st.mainList.erase n }
    | .division i, _ => { st with groups := mapDivisions (eraseDiv i) 0 st.groups }
  match toLoc with
  | .mainList => { erased with mainList := insertItem idx n erased.mainList }
  | .division j => { erased with groups := mapDivisions (insertDiv j) 0 erased.groups }

/-- `handleSingleDepartmentMove(departmentName, toElement, fromElement)`:
the single-department branch of the drag handler (runs after the DOM
mutation). -/
def handleSingleDepartmentMove (n : String) (toLoc fromLoc : Loc) (st : AppState) : AppState :=
  match toLoc with
  | .mainList =>
    sortMainList (removeDepartmentFromAllDivisions n none st)
  | .division g =>
    match fromLoc with
    | .mainList =>
      removeDepartmentFromAllDivisions n (some g) (removeDepartmentFromMainList n st)
    | .division _ =>
      removeDepartmentFromAllDivisions n (some g) st

/-- The `exceptDivisionId` that `moveSelectedDepartments` passes to
`removeDepartmentFromAllDivisions`: the target id, which matches a
division id only when the target is a division. -/
def exceptOf : Loc → Option Nat
  | .mainList => none
  | .division g => some g

/-- The body of the `selectedDepartments.forEach` loop in
`moveSelectedDepartments`: remove the department from the main list and
from every division except the target, then append it to the target
list unless it is already there. -/
def moveSelectedOne (toLoc : Loc) (st : AppState) (n : String) : AppState :=
  let st1 := removeDepartmentFromAllDivisions n (exceptOf toLoc) (removeDepartmentFromMainList n st)
  match toLoc with
  | .mainList =>
    if n ∈ st1.mainList then st1 else { st1 with mainList := st1.mainList ++ [n] }
  | .division g =>
    match getDivision st1 g with
    | none => st1
    | some gr => if n ∈ gr.departments then st1 else appendToDivision g n st1

/-- `moveSelectedDepartments(toDivisionId)`: move the whole selection to
the target list, then `clearSelection()`. -/
def moveSelectedDepartments (toLoc : Loc) (st : AppState) : AppState :=
  let st1 := st.selectedDepartments.foldl (moveSelectedOne toLoc) st
  { st1 with selectedDepartments := [] }

/-- A complete drag interaction ending at `toLoc` with drop position
`idx`: the SortableJS DOM mutation, then `handleDepartmentMove` (batch
branch when the dragged department belongs to a non-empty selection,
single branch otherwise), then the deferred `sortMainList` scheduled by
the main list's `onAdd` when the element arrived from another list. -/
def handleDepartmentMove (n : String) (toLoc : Loc) (idx : Nat) (st : AppState) : AppState :=
  let fromLoc := locationOf n st
  let st1 := domMove n fromLoc toLoc idx st
  let st2 :=
    if st.selectedDepartments ≠ [] ∧ n ∈ st.selectedDepartments then
      moveSelectedDepartments toLoc st1
    else
      handleSingleDepartmentMove n toLoc fromLoc st1
  if toLoc = .mainList ∧ fromLoc ≠ .mainList then sortMainList st2 else st2

/-- The fresh division box the `initializeDivisionBoxes` loop creates at
0-based position `i`: palette color (with the `|| '#3388ff'` fallback)
and the default editable name. -/
def mkGroup (i : Nat) : DivGroup :=
  { color := divisionColors.getD i "#3388ff"
    departments := []
    name := "División " ++ toString (i + 1) }

/-- `processDivisionReduction(newCount, previousGroups)`: every
department of the divisions with 1-based id above `newCount` is returned
to the main list. -/
def processDivisionReduction (newCount : Nat) (previousGroups : List DivGroup) (st : AppState) : AppState :=
  (previousGroups.drop newCount).foldl
    (fun s g => g.departments.foldl (fun s2 d => returnDepartmentToMainList d s2) s) st

/-- `initializeDivisionBoxes(newCount)` of `script.js` (renamed to avoid
a clash with a reserved word): snapshot the groups; on a reduction,
return the departments of the dissolved divisions to the main list;
rebuild every division box with its palette color and the default name,
restoring the previous `departments` of the positions that existed
before.  Note the rebuilt `h3` carries the default name: a user-edited
name is not restored. -/
def resizeDivisionBoxes (newCount : Nat) (st : AppState) : AppState :=
  let previousGroups := st.groups
  let st1 := if newCount < st.groups.length
             then processDivisionReduction newCount previousGroups st
             else st
  let restored := fun (i : Nat) =>
    { mkGroup i with departments := ((previousGroups[i]?).map (fun g => g.departments)).getD [] }
  { st1 with groups := (List.range newCount).map restored }

/-- The blur handler of an editable division name:
`departmentGroups[i].name = this.textContent`. -/
def renameGroup (gid : Nat) (newName : String) (st : AppState) : AppState :=
  let f := fun (i : Nat) (g : DivGroup) =>
    if gid = i + 1 then { g with name := newName } else g
  { st with groups := mapDivisions f 0 st.groups }

/-- `populateDepartmentsList(features)`: rebuild the main list with every
catalog department in catalog order. -/
def populateDepartmentsList (catalog : List DeptFeature) (st : AppState) : AppState :=
  { st with mainList := catalog.map (fun d => d.nam) }

/-- `resetToInitialState()`: clear the selection, empty every division
and restore its default name, repopulate the main list with the full
catalog, and rebuild 3 division boxes. -/
def resetToInitialState (catalog : List DeptFeature) (st : AppState) : AppState :=
  let clearDiv := fun (i : Nat) (g : DivGroup) =>
    { g with departments := ([] : List String), name := "División " ++ toString (i + 1) }
  let st1 := { st with selectedDepartments := [] }
  let st2 := { st1 with groups := mapDivisions clearDiv 0 st1.groups }
  resizeDivisionBoxes 3 (populateDepartmentsList catalog st2)

/-- The state right after initialisation: the sorted catalog fills the
main list and `initializeDivisionBoxes(3)` builds three empty divisions. -/
def initState (catalog : List DeptFeature) : AppState :=
  resizeDivisionBoxes 3
    (populateDepartmentsList catalog { mainList := [], groups := [], selectedDepartments := [] })

/-- The selection loop of `finalizePolygon`: a department is pushed onto
`selectedDepartments` when the polygon's bounding box intersects the
department's bounding box and contains its center. -/
def selectDepartmentsInPolygon (catalog : List DeptFeature) (pts : List LatLng) : List String :=
  let pb := polygonBounds pts
  (catalog.filter (fun d => pb.intersects d.bounds && pb.containsPoint d.bounds.center)).map
    (fun d => d.nam)

/-- `moveSelectedToMainList()`: every selected department not already in
the main list is appended to it (without being removed from its
division), then the main list is sorted. -/
def moveSelectedToMainList (st : AppState) : AppState :=
  sortMainList (st.selectedDepartments.foldl
    (fun s n => if n ∈ s.mainList then s else { s with mainList := s.mainList ++ [n] }) st)

/-- `finalizePolygon()`: with fewer than 3 points the operation aborts
(alert, state unchanged); otherwise the selection is replaced by the
departments inside the polygon's bounding box and, when non-empty,
`moveSelectedToMainList` runs. -/
def finalizePolygon (catalog : List DeptFeature) (pts : List LatLng) (st : AppState) : AppState :=
  if pts.length < 3 then st
  else
    let sel := selectDepartmentsInPolygon catalog pts
    let st1 := { st with selectedDepartments := sel }
    if sel ≠ [] then moveSelectedToMainList st1 else st1

/-- `datos_partidos.json`: `datos` maps a department code to named
numeric variables. -/
abbrev AttrTable := List (String × List (String × Rat))

/-- Association-list lookup (a JS object property access). -/
def lookupAssoc {α : Type} (l : List (String × α)) (k : String) : Option α :=
  (l.find? (fun p => decide (p.1 = k))).map (fun p => p.2)

/-- `obtenerCodigoCdePorNombre(nombreDepartamento)`: code of the first
catalog feature with the given name, else `null`. -/
def obtenerCodigoCdePorNombre (catalog : List DeptFeature) (nombre : String) : Option String :=
  (catalog.find? (fun d => decide (d.nam = nombre))).map (fun d => d.cde)

/-- The guarded lookup chain of `calcularTotalDivision`'s loop body:
`codigoCde && partidosData.datos[codigoCde] && partidosData.datos[codigoCde][variable]`
up to the final variable value (truthiness of the value itself is
checked at the use site). -/
def datoDe (datos : AttrTable) (catalog : List DeptFeature) (nombre varName : String) : Option Rat :=
  match obtenerCodigoCdePorNombre catalog nombre with
  | none => none
  | some codigoCde =>
    if codigoCde = "" then none
    else match lookupAssoc datos codigoCde with
      | none => none
      | some attrs => lookupAssoc attrs varName

/-- One iteration of the `partidosEnGrupo.forEach` accumulation in
`calcularTotalDivision`: the running pair is (`total`,
`partidosConDatos`); the department contributes only when the whole
lookup chain is truthy (in particular a value of 0 is skipped and not
counted). -/
def sumarStep (datos : AttrTable) (catalog : List DeptFeature) (varName : String)
    (acc : Rat × Nat) (nombrePartido : String) : Rat × Nat :=
  match datoDe datos catalog nombrePartido varName with
  | none => acc
  | some v => if v = 0 then acc else (acc.1 + v, acc.2 + 1)

/-- The `partidosEnGrupo.forEach` accumulation of `calcularTotalDivision`. -/
def sumarPartidos (datos : AttrTable) (catalog : List DeptFeature) (varName : String)
    (partidos : List String) : Rat × Nat :=
  partidos.foldl (sumarStep datos catalog varName) (0, 0)

/-- `partidosData` may still be `null` (load not finished or failed). -/
structure PartidosData where
  datos : AttrTable
deriving DecidableEq

/-- `calcularTotalDivision(grupoId, variable)`: 0 when the data is not
loaded; otherwise the accumulated total, collapsed to 0 when no
department had (truthy) data. -/
def calcularTotalDivision (partidosData : Option PartidosData) (catalog : List DeptFeature)
    (st : AppState) (grupoId : Nat) (varName : String) : Rat :=
  match partidosData with
  | none => 0
  | some pd =>
    let partidosEnGrupo := ((getDivision st grupoId).map (fun g => g.departments)).getD []
    let r := sumarPartidos pd.datos catalog varName partidosEnGrupo
    if r.2 > 0 then r.1 else 0

/-- `calcularDensidadDivision(grupoId)`: `some (población / superficie)`
under the strict-positivity guard, `none` otherwise.  The JS renders
`some q` as `q.toFixed(1)` and `none` as the sentinel string "0.0";
the floating-point rendering itself is not modelled. -/
def calcularDensidadDivision (partidosData : Option PartidosData) (catalog : List DeptFeature)
    (st : AppState) (grupoId : Nat) : Option Rat :=
  let poblacion := calcularTotalDivision partidosData catalog st grupoId "poblacion_total"
  let superficie := calcularTotalDivision partidosData catalog st grupoId "superficie"
  if superficie > 0 ∧ poblacion > 0 then some (poblacion / superficie) else none

/-- One column of the comparison table for división `i` (1-based), as
`updateComparisonTable` computes it: member count, total superficie,
total población, and the density. -/
structure AggregateRow where
  count : Nat
  superficie : Rat
  poblacion : Rat
  densidad : Option Rat
deriving DecidableEq

/-- The per-division cells of `updateComparisonTable`. -/
def computeRow (partidosData : Option PartidosData) (catalog : List DeptFeature)
    (st : AppState) (i : Nat) : AggregateRow :=
  { count := (((getDivision st i).map (fun g => g.departments)).getD []).length
    superficie := calcularTotalDivision partidosData catalog st i "superficie"
    poblacion := calcularTotalDivision partidosData catalog st i "poblacion_total"
    densidad := calcularDensidadDivision partidosData catalog st i }

/-- Number of occurrences of a department name across the whole
partition state (main list plus every division). -/
def occCount (n : String) (st : AppState) : Nat :=
  st.mainList.count n + (st.groups.map (fun g => g.departments.count n)).sum

/-- Occurrences of a department in the división at 0-based position `j`. -/
def divCount (j : Nat) (n : String) (st : AppState) : Nat :=
  (((st.groups[j]?).map (fun g => g.departments)).getD []).count n

/-- A drag destination/origin that exists in the DOM: the main list, or a
division id currently rendered. -/
def ValidLoc (st : AppState) : Loc → Prop
  | .mainList => True
  | .division g => 1 ≤ g ∧ g ≤ st.groups.length

instance (st : AppState) (loc : Loc) : Decidable (ValidLoc st loc) := by
  cases loc with
  | mainList => exact inferInstanceAs (Decidable True)
  | division g => exact inferInstanceAs (Decidable (_ ∧ _))

/-- The states reachable from initialisation by the operations the spec
names: resize, single moves and batch moves (as drag interactions over
cataloged unit names), reset, and replacing the transient Selection with
a set of cataloged unit names (the Selection is produced by the polygon
tool or manual picking; its contents always come from the catalog). -/
inductive Reachable (catalog : List DeptFeature) : AppState → Prop where
  | init : Reachable catalog (initState catalog)
  | resize {st : AppState} (newK : Nat) :
      1 ≤ newK → newK ≤ 12 → Reachable catalog st →
      Reachable catalog (resizeDivisionBoxes newK st)
  | select {st : AppState} (sel : List String) :
      (∀ n ∈ sel, n ∈ catalog.map (fun d => d.nam)) → Reachable catalog st →
      Reachable catalog { st with selectedDepartments := sel }
  | drag {st : AppState} (n : String) (toLoc : Loc) (idx : Nat) :
      n ∈ catalog.map (fun d => d.nam) → ValidLoc st toLoc → Reachable catalog st →
      Reachable catalog (handleDepartmentMove n toLoc idx st)
  | reset {st : AppState} : Reachable catalog st →
      Reachable catalog (resetToInitialState catalog st)

/-! Basic lemmas about the list primitives of the embedding. -/

theorem count_removeItems (n m : String) (l : List String) :
    (removeItems n l).count m = if m = n then 0 else l.count m := by
  unfold removeItems
  split
  · rename_i h
    subst h
    refine List.count_eq_zero.mpr ?_
    intro hmem
    rcases List.mem_filter.mp hmem with ⟨-, hp⟩
    simp at hp
  · rename_i h
    exact List.count_filter (by simpa using h)

theorem mem_removeItems {n m : String} {l : List String} :
    m ∈ removeItems n l ↔ m ∈ l ∧ m ≠ n := by
  unfold removeItems
  simp [List.mem_filter]

theorem removeItems_eq_self {n : String} {l : List String} (h : n ∉ l) :
    removeItems n l = l := by
  unfold removeItems
  refine List.filter_eq_self.mpr ?_
  intro a ha
  simp only [decide_eq_true_eq]
  rintro rfl
  exact h ha

theorem count_insertItem (idx : Nat) (n m : String) (l : List String) :
    (insertItem idx n l).count m = l.count m + if m = n then 1 else 0 := by
  unfold insertItem
  rw [List.count_append, List.count_append]
  have h2 : (l.take idx).count m + (l.drop idx).count m = l.count m := by
    rw [← List.count_append, List.take_append_drop]
  have h3 : List.count m [n] = if m = n then 1 else 0 := by
    simp only [List.count_singleton, beq_iff_eq]
    by_cases h : m = n
    · subst h
      rfl
    · rw [if_neg (fun hnm => h hnm.symm), if_neg h]
  omega

theorem mem_insertItem {idx : Nat} {n m : String} {l : List String} :
    m ∈ insertItem idx n l ↔ m = n ∨ m ∈ l := by
  unfold insertItem
  constructor
  · intro h
    rcases List.mem_append.mp h with h1 | h2
    · rcases List.mem_append.mp h1 with h3 | h4
      · exact Or.inr (List.mem_of_mem_take h3)
      · simp at h4
        exact Or.inl h4
    · exact Or.inr (List.mem_of_mem_drop h2)
  · intro h
    rcases h with rfl | h
    · exact List.mem_append.mpr (Or.inl (List.mem_append.mpr (Or.inr (by simp))))
    · have := List.take_append_drop idx l
      rw [← this] at h
      rcases List.mem_append.mp h with h1 | h2
      · exact List.mem_append.mpr (Or.inl (List.mem_append.mpr (Or.inl h1)))
      · exact List.mem_append.mpr (Or.inr h2)

theorem count_mergeSort (l : List String) (m : String) :
    (l.mergeSort nameLe).count m = l.count m :=
  (List.mergeSort_perm l nameLe).count_eq m

theorem mem_mergeSort_nameLe {l : List String} {m : String} :
    m ∈ l.mergeSort nameLe ↔ m ∈ l :=
  List.mem_mergeSort

theorem count_append_single (l : List String) (n m : String) :
    (l ++ [n]).count m = l.count m + if m = n then 1 else 0 := by
  rw [List.count_append]
  have h3 : List.count m [n] = if m = n then 1 else 0 := by
    simp only [List.count_singleton, beq_iff_eq]
    by_cases h : m = n
    · subst h
      rfl
    · rw [if_neg (fun hnm => h hnm.symm), if_neg h]
  omega

/-! Lemmas about `mapDivisions`. -/

theorem mapDivisions_length (f : Nat → DivGroup → DivGroup) (k : Nat) (gs : List DivGroup) :
    (mapDivisions f k gs).length = gs.length := by
  induction gs generalizing k with
  | nil => rfl
  | cons g gs ih => simp [mapDivisions, ih]

theorem mapDivisions_getElem? (f : Nat → DivGroup → DivGroup) (k : Nat) (gs : List DivGroup)
    (j : Nat) : (mapDivisions f k gs)[j]? = (gs[j]?).map (f (k + j)) := by
  induction gs generalizing k j with
  | nil => simp [mapDivisions]
  | cons g gs ih =>
    cases j with
    | zero => simp [mapDivisions]
    | succ j =>
      simp only [mapDivisions, List.getElem?_cons_succ, ih (k + 1) j]
      have : k + 1 + j = k + (j + 1) := by omega
      rw [this]

/-! Bridging `occCount` with a sum of per-division counts. -/

theorem sum_map_eq_range_sum (gs : List DivGroup) (f : DivGroup → Nat) :
    (gs.map f).sum = ∑ j ∈ Finset.range gs.length, ((gs[j]?).map f).getD 0 := by
  induction gs with
  | nil => simp
  | cons g gs ih =>
    rw [List.map_cons, List.sum_cons, List.length_cons, Finset.sum_range_succ']
    simp only [List.getElem?_cons_succ, List.getElem?_cons_zero, Option.map_some',
      Option.getD_some]
    rw [ih]
    omega

theorem occCount_eq_range (n : String) (st : AppState) :
    occCount n st = st.mainList.count n +
      ∑ j ∈ Finset.range st.groups.length, divCount j n st := by
  unfold occCount divCount
  rw [sum_map_eq_range_sum]
  congr 1
  refine Finset.sum_congr rfl ?_
  intro j hj
  cases h : st.groups[j]? <;> simp [h]

/-! Field projections and count characterizations of the primitive
operations. -/

theorem divCount_of_ge_length {j : Nat} {n : String} {st : AppState}
    (h : st.groups.length ≤ j) : divCount j n st = 0 := by
  unfold divCount
  rw [List.getElem?_eq_none h]
  simp

theorem sortMainList_groups (st : AppState) : (sortMainList st).groups = st.groups := rfl

theorem sortMainList_sel (st : AppState) :
    (sortMainList st).selectedDepartments = st.selectedDepartments := rfl

theorem sortMainList_count (st : AppState) (m : String) :
    (sortMainList st).mainList.count m = st.mainList.count m :=
  count_mergeSort _ _

theorem divCount_sortMainList (j : Nat) (m : String) (st : AppState) :
    divCount j m (sortMainList st) = divCount j m st := rfl

theorem removeMain_groups (n : String) (st : AppState) :
    (removeDepartmentFromMainList n st).groups = st.groups := rfl

theorem removeMain_sel (n : String) (st : AppState) :
    (removeDepartmentFromMainList n st).selectedDepartments = st.selectedDepartments := rfl

theorem removeMain_count (n m : String) (st : AppState) :
    (removeDepartmentFromMainList n st).mainList.count m =
      if m = n then 0 else st.mainList.count m :=
  count_removeItems n m st.mainList

theorem divCount_removeMain (j : Nat) (n m : String) (st : AppState) :
    divCount j m (removeDepartmentFromMainList n st) = divCount j m st := rfl

theorem removeAllDiv_mainList (n : String) (e : Option Nat) (st : AppState) :
    (removeDepartmentFromAllDivisions n e st).mainList = st.mainList := rfl

theorem removeAllDiv_sel (n : String) (e : Option Nat) (st : AppState) :
    (removeDepartmentFromAllDivisions n e st).selectedDepartments = st.selectedDepartments := rfl

theorem removeAllDiv_length (n : String) (e : Option Nat) (st : AppState) :
    (removeDepartmentFromAllDivisions n e st).groups.length = st.groups.length :=
  mapDivisions_length _ _ _

theorem divCount_removeAllDiv (j : Nat) (n m : String) (e : Option Nat) (st : AppState) :
    divCount j m (removeDepartmentFromAllDivisions n e st) =
      if e = some (j + 1) then divCount j m st
      else if m = n then 0 else divCount j m st := by
  unfold divCount removeDepartmentFromAllDivisions
  simp only [mapDivisions_getElem?, Nat.zero_add]
  cases h : st.groups[j]? with
  | none => simp
  | some g =>
    simp only [Option.map_some', Option.map_map]
    by_cases he : e = some (j + 1)
    · simp [he]
    · simp only [he, if_false, Option.getD_some, Function.comp_apply]
      exact count_removeItems n m g.departments

theorem appendDiv_mainList (g : Nat) (n : String) (st : AppState) :
    (appendToDivision g n st).mainList = st.mainList := rfl

theorem appendDiv_sel (g : Nat) (n : String) (st : AppState) :
    (appendToDivision g n st).selectedDepartments = st.selectedDepartments := rfl

theorem appendDiv_length (g : Nat) (n : String) (st : AppState) :
    (appendToDivision g n st).groups.length = st.groups.length :=
  mapDivisions_length _ _ _

theorem divCount_appendDiv (j g : Nat) (n m : String) (st : AppState) :
    divCount j m (appendToDivision g n st) =
      divCount j m st +
        if g = j + 1 ∧ m = n ∧ j < st.groups.length then 1 else 0 := by
  unfold divCount appendToDivision
  simp only [mapDivisions_getElem?, Nat.zero_add]
  cases h : st.groups[j]? with
  | none =>
    have hlen : ¬j < st.groups.length := by
      intro hlt
      rw [List.getElem?_eq_getElem hlt] at h
      exact Option.noConfusion h
    simp [hlen]
  | some gr =>
    have hlen : j < st.groups.length := by
      by_contra hlt
      rw [List.getElem?_eq_none (Nat.le_of_not_lt hlt)] at h
      exact Option.noConfusion h
    simp only [Option.map_some', Option.getD_some]
    by_cases hg : g = j + 1
    · subst hg
      rw [if_pos rfl]
      show (gr.departments ++ [n]).count m = _
      rw [count_append_single]
      by_cases hm : m = n
      · simp [hm, hlen]
      · simp [hm]
    · simp [hg]

/-! `locationOf` characterizations. -/

theorem mem_div_iff_divCount {j : Nat} {n : String} {st : AppState} {g : DivGroup}
    (h : st.groups[j]? = some g) : n ∈ g.departments ↔ divCount j n st ≠ 0 := by
  unfold divCount
  rw [h]
  simp only [Option.map_some', Option.getD_some]
  rw [Ne, List.count_eq_zero]
  simp

theorem locationOf_eq_mainList_iff {n : String} {st : AppState} :
    locationOf n st = .mainList ↔ ∀ j, divCount j n st = 0 := by
  unfold locationOf
  constructor
  · intro h j
    cases hf : st.groups.findIdx? (fun g => g.departments.contains n) with
    | some i => rw [hf] at h; exact Loc.noConfusion h
    | none =>
      rw [List.findIdx?_eq_none_iff] at hf
      cases hgj : st.groups[j]? with
      | none => unfold divCount; rw [hgj]; simp
      | some g =>
        have hg : g ∈ st.groups := List.getElem?_mem hgj
        have := hf g hg
        unfold divCount
        rw [hgj]
        simp only [Option.map_some', Option.getD_some]
        rw [List.count_eq_zero]
        intro hmem
        rw [List.contains_eq_any_beq] at this
        have : ¬ g.departments.any (n == ·) = true := by rw [this]; exact Bool.false_ne_true
        exact this (List.any_eq_true.mpr ⟨n, hmem, by simp⟩)
  · intro h
    cases hf : st.groups.findIdx? (fun g => g.departments.contains n) with
    | none => rfl
    | some i =>
      exfalso
      rw [List.findIdx?_eq_some_iff_getElem] at hf
      rcases hf with ⟨hi, hp, -⟩
      have hgi : st.groups[i]? = some (st.groups[i]) := List.getElem?_eq_getElem hi
      have hmem : n ∈ (st.groups[i]).departments := by
        have := List.contains_eq_any_beq (st.groups[i]).departments n
        rw [this] at hp
        rcases List.any_eq_true.mp hp with ⟨x, hx, hbeq⟩
        rw [beq_iff_eq] at hbeq
        rwa [← hbeq] at hx
      exact ((mem_div_iff_divCount hgi).mp hmem) (h i)

theorem locationOf_eq_division {n : String} {st : AppState} {j : Nat}
    (h1 : divCount j n st ≠ 0) (h0 : ∀ i, i < j → divCount i n st = 0) :
    locationOf n st = .division (j + 1) := by
  unfold locationOf
  have hj : j < st.groups.length := by
    by_contra hlt
    exact h1 (divCount_of_ge_length (Nat.le_of_not_lt hlt))
  have hfind : st.groups.findIdx? (fun g => g.departments.contains n) = some j := by
    rw [List.findIdx?_eq_some_iff_getElem]
    refine ⟨hj, ?_, ?_⟩
    · have hgj : st.groups[j]? = some (st.groups[j]) := List.getElem?_eq_getElem hj
      have hmem := (mem_div_iff_divCount hgj).mpr h1
      rw [List.contains_eq_any_beq]
      exact List.any_eq_true.mpr ⟨n, hmem, by simp⟩
    · intro i hij
      have hgi : st.groups[i]? = some (st.groups[i]) :=
        List.getElem?_eq_getElem (Nat.lt_trans hij hj)
      have hno : n ∉ (st.groups[i]).departments := by
        intro hmem
        exact ((mem_div_iff_divCount hgi).mp hmem) (h0 i hij)
      simp only [List.contains_eq_any_beq, Bool.not_eq_true]
      rw [Bool.eq_false_iff]
      intro hany
      rcases List.any_eq_true.mp hany with ⟨x, hx, hbeq⟩
      rw [beq_iff_eq] at hbeq
      exact hno (hbeq ▸ hx)
  rw [hfind]

theorem locationOf_division_inv {n : String} {st : AppState} {i : Nat}
    (h : locationOf n st = .division i) :
    1 ≤ i ∧ divCount (i - 1) n st ≠ 0 ∧ ∀ k, k < i - 1 → divCount k n st = 0 := by
  unfold locationOf at h
  cases hf : st.groups.findIdx? (fun g => g.departments.contains n) with
  | none => rw [hf] at h; exact Loc.noConfusion h
  | some j =>
    rw [hf] at h
    have hij : i = j + 1 := by
      cases h
      rfl
    subst hij
    rw [List.findIdx?_eq_some_iff_getElem] at hf
    rcases hf with ⟨hj, hp, hprev⟩
    refine ⟨Nat.le_add_left 1 j, ?_, ?_⟩
    · have hgj : st.groups[j]? = some (st.groups[j]) := List.getElem?_eq_getElem hj
      simp only [Nat.add_sub_cancel]
      refine (mem_div_iff_divCount hgj).mp ?_
      rw [List.contains_eq_any_beq] at hp
      rcases List.any_eq_true.mp hp with ⟨x, hx, hbeq⟩
      rw [beq_iff_eq] at hbeq
      rwa [← hbeq] at hx
    · intro k hk
      simp only [Nat.add_sub_cancel] at hk
      have hki : k < st.groups.length := Nat.lt_trans hk hj
      have hgk : st.groups[k]? = some (st.groups[k]) := List.getElem?_eq_getElem hki
      by_contra hne
      have hmem := (mem_div_iff_divCount hgk).mpr hne
      have := hprev k hk
      simp only [List.contains_eq_any_beq, Bool.not_eq_true] at this
      rw [Bool.eq_false_iff] at this
      exact this (List.any_eq_true.mpr ⟨n, hmem, by simp⟩)

/-! `domMove` characterizations, one per (origin, target) shape. -/

theorem domMove_sel (n : String) (fromLoc toLoc : Loc) (idx : Nat) (st : AppState) :
    (domMove n fromLoc toLoc idx st).selectedDepartments = st.selectedDepartments := by
  unfold domMove
  cases fromLoc <;> cases toLoc <;> rfl

theorem domMove_length (n : String) (fromLoc toLoc : Loc) (idx : Nat) (st : AppState) :
    (domMove n fromLoc toLoc idx st).groups.length = st.groups.length := by
  unfold domMove
  cases fromLoc <;> cases toLoc <;> simp [mapDivisions_length]

theorem domMove_mm_mainList (n : String) (idx : Nat) (st : AppState) :
    (domMove n .mainList .mainList idx st).mainList = insertItem idx n (st.mainList.erase n) := rfl

theorem domMove_mm_groups (n : String) (idx : Nat) (st : AppState) :
    (domMove n .mainList .mainList idx st).groups = st.groups := rfl

theorem domMove_md_mainList (n : String) (g : Nat) (idx : Nat) (st : AppState) :
    (domMove n .mainList (.division g) idx st).mainList = st.mainList := rfl

theorem divCount_domMove_md (n m : String) (g : Nat) (idx : Nat) (st : AppState) (j : Nat) :
    divCount j m (domMove n .mainList (.division g) idx st) =
      divCount j m st + if g = j + 1 ∧ m = n ∧ j < st.groups.length then 1 else 0 := by
  show (((((mapDivisions _ 0 st.groups)[j]?).map (fun g => g.departments)).getD []).count m) = _
  rw [mapDivisions_getElem?, Nat.zero_add]
  cases h : st.groups[j]? with
  | none =>
    have hlen : ¬j < st.groups.length := by
      intro hlt
      rw [List.getElem?_eq_getElem hlt] at h
      exact Option.noConfusion h
    simp [divCount, h, hlen]
  | some gr =>
    have hlen : j < st.groups.length := by
      by_contra hlt
      rw [List.getElem?_eq_none (Nat.le_of_not_lt hlt)] at h
      exact Option.noConfusion h
    simp only [Option.map_some', Option.getD_some, divCount, h]
    by_cases hg : g = j + 1
    · subst hg
      rw [if_pos rfl]
      show (insertItem idx n gr.departments).count m = _
      rw [count_insertItem]
      by_cases hm : m = n
      · simp [hm, hlen]
      · simp [hm]
    · simp [hg]

theorem domMove_dm_mainList (n : String) (i : Nat) (idx : Nat) (st : AppState) :
    (domMove n (.division i) .mainList idx st).mainList = insertItem idx n st.mainList := rfl

theorem divCount_domMove_dm (n m : String) (i : Nat) (idx : Nat) (st : AppState) (j : Nat) :
    divCount j m (domMove n (.division i) .mainList idx st) =
      if i = j + 1 ∧ m = n then divCount j m st - 1 else divCount j m st := by
  show (((((mapDivisions _ 0 st.groups)[j]?).map (fun g => g.departments)).getD []).count m) = _
  rw [mapDivisions_getElem?, Nat.zero_add]
  cases h : st.groups[j]? with
  | none => simp [divCount, h]
  | some gr =>
    simp only [Option.map_some', Option.getD_some, divCount, h]
    by_cases hi : i = j + 1
    · rw [if_pos hi]
      show ((gr.departments.erase n).count m) = _
      by_cases hm : m = n
      · rw [if_pos (show i = j + 1 ∧ m = n from ⟨hi, hm⟩), hm]
        exact List.count_erase_self n gr.departments
      · rw [if_neg (show ¬(i = j + 1 ∧ m = n) from fun hc => hm hc.2)]
        exact List.count_erase_of_ne hm gr.departments
    · rw [if_neg hi, if_neg (show ¬(i = j + 1 ∧ m = n) from fun hc => hi hc.1)]

theorem domMove_dd_mainList (n : String) (i g : Nat) (idx : Nat) (st : AppState) :
    (domMove n (.division i) (.division g) idx st).mainList = st.mainList := rfl

theorem divCount_domMove_dd (n m : String) (i g : Nat) (idx : Nat) (st : AppState) (j : Nat) :
    divCount j m (domMove n (.division i) (.division g) idx st) =
      (if i = j + 1 ∧ m = n then divCount j m st - 1 else divCount j m st) +
        if g = j + 1 ∧ m = n ∧ j < st.groups.length then 1 else 0 := by
  show (((((mapDivisions _ 0 (mapDivisions _ 0 st.groups))[j]?).map (fun g => g.departments)).getD []).count m) = _
  rw [mapDivisions_getElem?, Nat.zero_add, mapDivisions_getElem?, Nat.zero_add]
  cases h : st.groups[j]? with
  | none =>
    have hlen : ¬j < st.groups.length := by
      intro hlt
      rw [List.getElem?_eq_getElem hlt] at h
      exact Option.noConfusion h
    simp [divCount, h, hlen]
  | some gr =>
    have hlen : j < st.groups.length := by
      by_contra hlt
      rw [List.getElem?_eq_none (Nat.le_of_not_lt hlt)] at h
      exact Option.noConfusion h
    simp only [Option.map_some', Option.getD_some, divCount, h]
    by_cases hi : i = j + 1
    · rw [if_pos hi]
      by_cases hg : g = j + 1
      · rw [if_pos hg]
        show ((insertItem idx n (gr.departments.erase n)).count m) = _
        rw [count_insertItem]
        by_cases hm : m = n
        · rw [if_pos hm, if_pos (show i = j + 1 ∧ m = n from ⟨hi, hm⟩),
            if_pos (show g = j + 1 ∧ m = n ∧ j < st.groups.length from ⟨hg, hm, hlen⟩), hm,
            List.count_erase_self]
        · rw [if_neg hm, if_neg (show ¬(i = j + 1 ∧ m = n) from fun hc => hm hc.2),
            if_neg (show ¬(g = j + 1 ∧ m = n ∧ j < st.groups.length) from fun hc => hm hc.2.1),
            List.count_erase_of_ne hm]
      · rw [if_neg hg]
        show ((gr.departments.erase n).count m) = _
        rw [if_neg (show ¬(g = j + 1 ∧ m = n ∧ j < st.groups.length) from fun hc => hg hc.1),
          Nat.add_zero]
        by_cases hm : m = n
        · rw [if_pos (show i = j + 1 ∧ m = n from ⟨hi, hm⟩), hm, List.count_erase_self]
        · rw [if_neg (show ¬(i = j + 1 ∧ m = n) from fun hc => hm hc.2),
            List.count_erase_of_ne hm]
    · rw [if_neg hi, if_neg (show ¬(i = j + 1 ∧ m = n) from fun hc => hi hc.1)]
      by_cases hg : g = j + 1
      · rw [if_pos hg]
        show ((insertItem idx n gr.departments).count m) = _
        rw [count_insertItem]
        by_cases hm : m = n
        · rw [if_pos hm, if_pos (show g = j + 1 ∧ m = n ∧ j < st.groups.length from ⟨hg, hm, hlen⟩)]
        · rw [if_neg hm, if_neg (show ¬(g = j + 1 ∧ m = n ∧ j < st.groups.length) from fun hc => hm hc.2.1)]
      · rw [if_neg hg, if_neg (show ¬(g = j + 1 ∧ m = n ∧ j < st.groups.length) from fun hc => hg hc.1),
          Nat.add_zero]

/-! `handleSingleDepartmentMove` characterizations. -/

theorem handleSingle_sel (n : String) (toLoc fromLoc : Loc) (st : AppState) :
    (handleSingleDepartmentMove n toLoc fromLoc st).selectedDepartments =
      st.selectedDepartments := by
  unfold handleSingleDepartmentMove
  cases toLoc <;> cases fromLoc <;> rfl

theorem handleSingle_length (n : String) (toLoc fromLoc : Loc) (st : AppState) :
    (handleSingleDepartmentMove n toLoc fromLoc st).groups.length = st.groups.length := by
  unfold handleSingleDepartmentMove
  cases toLoc <;> cases fromLoc <;>
    simp [sortMainList, removeDepartmentFromAllDivisions, removeDepartmentFromMainList,
      mapDivisions_length]

theorem handleSingle_toMain_count (n m : String) (fromLoc : Loc) (st : AppState) :
    (handleSingleDepartmentMove n .mainList fromLoc st).mainList.count m =
      st.mainList.count m := by
  unfold handleSingleDepartmentMove
  rw [sortMainList_count, removeAllDiv_mainList]

theorem divCount_handleSingle_toMain (n m : String) (fromLoc : Loc) (st : AppState) (j : Nat) :
    divCount j m (handleSingleDepartmentMove n .mainList fromLoc st) =
      if m = n then 0 else divCount j m st := by
  unfold handleSingleDepartmentMove
  rw [divCount_sortMainList, divCount_removeAllDiv]
  simp

theorem handleSingle_toDiv_fromMain_count (n m : String) (g : Nat) (st : AppState) :
    (handleSingleDepartmentMove n (.division g) .mainList st).mainList.count m =
      if m = n then 0 else st.mainList.count m := by
  unfold handleSingleDepartmentMove
  rw [removeAllDiv_mainList, removeMain_count]

theorem divCount_handleSingle_toDiv_fromMain (n m : String) (g : Nat) (st : AppState) (j : Nat) :
    divCount j m (handleSingleDepartmentMove n (.division g) .mainList st) =
      if some g = some (j + 1) then divCount j m st
      else if m = n then 0 else divCount j m st := by
  unfold handleSingleDepartmentMove
  rw [divCount_removeAllDiv]
  rfl

theorem handleSingle_toDiv_fromDiv_count (n m : String) (g i : Nat) (st : AppState) :
    (handleSingleDepartmentMove n (.division g) (.division i) st).mainList.count m =
      st.mainList.count m := by
  unfold handleSingleDepartmentMove
  rw [removeAllDiv_mainList]

theorem divCount_handleSingle_toDiv_fromDiv (n m : String) (g i : Nat) (st : AppState) (j : Nat) :
    divCount j m (handleSingleDepartmentMove n (.division g) (.division i) st) =
      if some g = some (j + 1) then divCount j m st
      else if m = n then 0 else divCount j m st := by
  unfold handleSingleDepartmentMove
  rw [divCount_removeAllDiv]

/-! `moveSelectedOne` characterizations. -/

theorem moveSelOne_sel (toLoc : Loc) (st : AppState) (n : String) :
    (moveSelectedOne toLoc st n).selectedDepartments = st.selectedDepartments := by
  cases toLoc with
  | mainList =>
    simp only [moveSelectedOne]
    split <;> rfl
  | division g =>
    simp only [moveSelectedOne]
    cases hgd : getDivision (removeDepartmentFromAllDivisions n (exceptOf (Loc.division g))
        (removeDepartmentFromMainList n st)) g with
    | none =>
      simp only [hgd]
      rfl
    | some gr =>
      simp only [hgd]
      split <;> rfl

theorem moveSelOne_length (toLoc : Loc) (st : AppState) (n : String) :
    (moveSelectedOne toLoc st n).groups.length = st.groups.length := by
  cases toLoc with
  | mainList =>
    simp only [moveSelectedOne]
    split <;>
      simp [removeDepartmentFromAllDivisions, removeDepartmentFromMainList, mapDivisions_length]
  | division g =>
    simp only [moveSelectedOne]
    cases hgd : getDivision (removeDepartmentFromAllDivisions n (exceptOf (Loc.division g))
        (removeDepartmentFromMainList n st)) g with
    | none =>
      simp only [hgd]
      simp [removeDepartmentFromAllDivisions, removeDepartmentFromMainList, mapDivisions_length]
    | some gr =>
      simp only [hgd]
      split <;>
        simp [appendToDivision, removeDepartmentFromAllDivisions,
          removeDepartmentFromMainList, mapDivisions_length]

theorem moveSelOne_main_count (st : AppState) (n m : String) :
    (moveSelectedOne .mainList st n).mainList.count m =
      if m = n then 1 else st.mainList.count m := by
  simp only [moveSelectedOne]
  have hnot : n ∉ (removeDepartmentFromAllDivisions n (exceptOf Loc.mainList)
      (removeDepartmentFromMainList n st)).mainList := by
    intro hmem
    exact (mem_removeItems.mp hmem).2 rfl
  rw [if_neg hnot]
  show (removeItems n st.mainList ++ [n]).count m = _
  rw [count_append_single, count_removeItems]
  by_cases hm : m = n <;> simp [hm]

theorem divCount_moveSelOne_main (st : AppState) (n m : String) (j : Nat) :
    divCount j m (moveSelectedOne .mainList st n) =
      if m = n then 0 else divCount j m st := by
  simp only [moveSelectedOne]
  have hnot : n ∉ (removeDepartmentFromAllDivisions n (exceptOf Loc.mainList)
      (removeDepartmentFromMainList n st)).mainList := by
    intro hmem
    exact (mem_removeItems.mp hmem).2 rfl
  rw [if_neg hnot]
  show divCount j m (removeDepartmentFromAllDivisions n none (removeDepartmentFromMainList n st)) = _
  rw [divCount_removeAllDiv]
  simp [divCount_removeMain]

theorem moveSelOne_div_count (st : AppState) (g : Nat) (n m : String) :
    (moveSelectedOne (.division g) st n).mainList.count m =
      if m = n then 0 else st.mainList.count m := by
  simp only [moveSelectedOne]
  cases hgd : getDivision (removeDepartmentFromAllDivisions n (exceptOf (Loc.division g))
      (removeDepartmentFromMainList n st)) g with
  | none =>
    simp only [hgd]
    rw [removeAllDiv_mainList, removeMain_count]
  | some gr =>
    simp only [hgd]
    split
    · rw [removeAllDiv_mainList, removeMain_count]
    · rw [appendDiv_mainList, removeAllDiv_mainList, removeMain_count]

theorem divCount_moveSelOne_div_ne {m n : String} (hm : m ≠ n) (st : AppState) (g : Nat)
    (j : Nat) : divCount j m (moveSelectedOne (.division g) st n) = divCount j m st := by
  simp only [moveSelectedOne]
  cases hgd : getDivision (removeDepartmentFromAllDivisions n (exceptOf (Loc.division g))
      (removeDepartmentFromMainList n st)) g with
  | none =>
    simp only [hgd]
    rw [divCount_removeAllDiv]
    simp [hm, divCount_removeMain]
  | some gr =>
    simp only [hgd]
    split
    · rw [divCount_removeAllDiv]
      simp [hm, divCount_removeMain]
    · rw [divCount_appendDiv, divCount_removeAllDiv]
      simp [hm, divCount_removeMain]

theorem divCount_moveSelOne_div_other {g : Nat} {j : Nat} (hj : g ≠ j + 1) (st : AppState)
    (n : String) : divCount j n (moveSelectedOne (.division g) st n) = 0 := by
  simp only [moveSelectedOne]
  cases hgd : getDivision (removeDepartmentFromAllDivisions n (exceptOf (Loc.division g))
      (removeDepartmentFromMainList n st)) g with
  | none =>
    simp only [hgd]
    rw [divCount_removeAllDiv]
    simp only [exceptOf, Option.some.injEq]
    simp [hj]
  | some gr =>
    simp only [hgd]
    have hbase : divCount j n (removeDepartmentFromAllDivisions n (exceptOf (Loc.division g))
        (removeDepartmentFromMainList n st)) = 0 := by
      rw [divCount_removeAllDiv]
      simp only [exceptOf, Option.some.injEq]
      simp [hj]
    split
    · exact hbase
    · rw [divCount_appendDiv]
      rw [hbase]
      simp [hj]

theorem divCount_moveSelOne_div_self {st : AppState} {g : Nat} (hg1 : 1 ≤ g)
    (hgK : g ≤ st.groups.length) (n : String) :
    divCount (g - 1) n (moveSelectedOne (.division g) st n) =
      if divCount (g - 1) n st = 0 then 1 else divCount (g - 1) n st := by
  have hpred : g - 1 + 1 = g := Nat.succ_pred_eq_of_pos hg1
  simp only [moveSelectedOne]
  set st1 := removeDepartmentFromAllDivisions n (exceptOf (Loc.division g))
    (removeDepartmentFromMainList n st) with hst1
  have hbase : divCount (g - 1) n st1 = divCount (g - 1) n st := by
    rw [hst1, divCount_removeAllDiv]
    simp only [exceptOf, Option.some.injEq]
    rw [if_pos hpred.symm]
    rfl
  have hlen1 : st1.groups.length = st.groups.length := by
    rw [hst1, removeAllDiv_length, removeMain_groups]
  have hlt : g - 1 < st1.groups.length := by
    rw [hlen1]
    omega
  have hgd : getDivision st1 g = some (st1.groups[g - 1]) := by
    unfold getDivision
    rw [if_pos hg1]
    exact List.getElem?_eq_getElem hlt
  rw [hgd]
  simp only
  have hmemiff := @mem_div_iff_divCount (g - 1) n st1 _ (List.getElem?_eq_getElem hlt)
  by_cases h0 : divCount (g - 1) n st = 0
  · have hnot : n ∉ (st1.groups[g - 1]).departments := by
      intro hmem
      exact (hmemiff.mp hmem) (hbase.trans h0)
    rw [if_neg hnot, divCount_appendDiv, hbase, h0, if_pos ⟨hpred.symm, rfl, hlt⟩]
    simp
  · have hmem : n ∈ (st1.groups[g - 1]).departments := by
      refine hmemiff.mpr ?_
      rw [hbase]
      exact h0
    rw [if_pos hmem, if_neg h0]
    exact hbase

/-! Fold lemmas for `moveSelectedDepartments`. -/

theorem moveSelOne_frame {d m : String} (hne : d ≠ m) (toLoc : Loc) (st : AppState) :
    (moveSelectedOne toLoc st d).mainList.count m = st.mainList.count m ∧
      ∀ j, divCount j m (moveSelectedOne toLoc st d) = divCount j m st := by
  cases toLoc with
  | mainList =>
    refine ⟨?_, ?_⟩
    · rw [moveSelOne_main_count, if_neg (fun h => hne h.symm)]
    · intro j
      rw [divCount_moveSelOne_main, if_neg (fun h => hne h.symm)]
  | division g =>
    refine ⟨?_, ?_⟩
    · rw [moveSelOne_div_count, if_neg (fun h => hne h.symm)]
    · intro j
      exact divCount_moveSelOne_div_ne (fun h => hne h.symm) st g j

theorem foldMoveSel_sel (toLoc : Loc) (ds : List String) (st : AppState) :
    (ds.foldl (moveSelectedOne toLoc) st).selectedDepartments = st.selectedDepartments := by
  induction ds generalizing st with
  | nil => rfl
  | cons d ds ih => rw [List.foldl_cons, ih, moveSelOne_sel]

theorem foldMoveSel_length (toLoc : Loc) (ds : List String) (st : AppState) :
    (ds.foldl (moveSelectedOne toLoc) st).groups.length = st.groups.length := by
  induction ds generalizing st with
  | nil => rfl
  | cons d ds ih => rw [List.foldl_cons, ih, moveSelOne_length]

theorem foldMoveSel_frame {m : String} {ds : List String} (hm : m ∉ ds) (toLoc : Loc)
    (st : AppState) :
    (ds.foldl (moveSelectedOne toLoc) st).mainList.count m = st.mainList.count m ∧
      ∀ j, divCount j m (ds.foldl (moveSelectedOne toLoc) st) = divCount j m st := by
  induction ds generalizing st with
  | nil => exact ⟨rfl, fun _ => rfl⟩
  | cons d ds ih =>
    have hdm : d ≠ m := fun h => hm (h ▸ List.mem_cons_self d ds)
    have hmds : m ∉ ds := fun h => hm (List.mem_cons_of_mem d h)
    rw [List.foldl_cons]
    rcases ih hmds (moveSelectedOne toLoc st d) with ⟨h1, h2⟩
    rcases moveSelOne_frame hdm toLoc st with ⟨h3, h4⟩
    exact ⟨h1.trans h3, fun j => (h2 j).trans (h4 j)⟩

theorem foldMoveSel_achieve_main {m : String} {ds : List String} (hm : m ∈ ds)
    (st : AppState) :
    (ds.foldl (moveSelectedOne .mainList) st).mainList.count m = 1 ∧
      ∀ j, divCount j m (ds.foldl (moveSelectedOne .mainList) st) = 0 := by
  induction ds generalizing st with
  | nil => exact absurd hm (List.not_mem_nil m)
  | cons d ds ih =>
    rw [List.foldl_cons]
    by_cases hmds : m ∈ ds
    · exact ih hmds _
    · have hdm : d = m := by
        rcases List.mem_cons.mp hm with h | h
        · exact h.symm
        · exact absurd h hmds
      subst hdm
      rcases foldMoveSel_frame hmds .mainList (moveSelectedOne .mainList st d) with ⟨h1, h2⟩
      refine ⟨?_, ?_⟩
      · rw [h1, moveSelOne_main_count, if_pos rfl]
      · intro j
        rw [h2 j, divCount_moveSelOne_main, if_pos rfl]

theorem foldMoveSel_achieve_div {m : String} {ds : List String} {g : Nat} {st : AppState}
    (hm : m ∈ ds) (hg1 : 1 ≤ g) (hgK : g ≤ st.groups.length) :
    (ds.foldl (moveSelectedOne (.division g)) st).mainList.count m = 0 ∧
      (∀ j, g ≠ j + 1 → divCount j m (ds.foldl (moveSelectedOne (.division g)) st) = 0) ∧
      divCount (g - 1) m (ds.foldl (moveSelectedOne (.division g)) st) =
        (if divCount (g - 1) m st = 0 then 1 else divCount (g - 1) m st) := by
  induction ds generalizing st with
  | nil => exact absurd hm (List.not_mem_nil m)
  | cons d ds ih =>
    rw [List.foldl_cons]
    by_cases hmds : m ∈ ds
    · have hgK1 : g ≤ (moveSelectedOne (.division g) st d).groups.length := by
        rw [moveSelOne_length]
        exact hgK
      rcases ih hmds hgK1 with ⟨h1, h2, h3⟩
      refine ⟨h1, h2, ?_⟩
      rw [h3]
      by_cases hdm : d = m
      · subst hdm
        rw [divCount_moveSelOne_div_self hg1 hgK]
        by_cases h0 : divCount (g - 1) d st = 0 <;> simp [h0]
      · rcases moveSelOne_frame hdm (.division g) st with ⟨-, h4⟩
        rw [h4]
    · have hdm : d = m := by
        rcases List.mem_cons.mp hm with h | h
        · exact h.symm
        · exact absurd h hmds
      subst hdm
      rcases foldMoveSel_frame hmds (.division g) (moveSelectedOne (.division g) st d) with
        ⟨h1, h2⟩
      refine ⟨?_, ?_, ?_⟩
      · rw [h1, moveSelOne_div_count, if_pos rfl]
      · intro j hj
        rw [h2 j]
        exact divCount_moveSelOne_div_other (fun h => hj h) st d
      · rw [h2 (g - 1)]
        exact divCount_moveSelOne_div_self hg1 hgK d

/-! `moveSelectedDepartments` wrappers. -/

theorem moveSelDeps_sel (toLoc : Loc) (st : AppState) :
    (moveSelectedDepartments toLoc st).selectedDepartments = [] := rfl

theorem moveSelDeps_length (toLoc : Loc) (st : AppState) :
    (moveSelectedDepartments toLoc st).groups.length = st.groups.length :=
  foldMoveSel_length toLoc st.selectedDepartments st

theorem moveSelDeps_frame {m : String} {st : AppState} (hm : m ∉ st.selectedDepartments)
    (toLoc : Loc) :
    (moveSelectedDepartments toLoc st).mainList.count m = st.mainList.count m ∧
      ∀ j, divCount j m (moveSelectedDepartments toLoc st) = divCount j m st :=
  foldMoveSel_frame hm toLoc st

/-! `returnDepartmentToMainList` and `processDivisionReduction`. -/

theorem returnDept_sel (n : String) (st : AppState) :
    (returnDepartmentToMainList n st).selectedDepartments = st.selectedDepartments := rfl

theorem returnDept_groups (n : String) (st : AppState) :
    (returnDepartmentToMainList n st).groups = st.groups := rfl

theorem returnDept_count (n m : String) (st : AppState) :
    (returnDepartmentToMainList n st).mainList.count m =
      st.mainList.count m + if m = n then 1 else 0 := by
  unfold returnDepartmentToMainList
  rw [sortMainList_count]
  exact count_append_single st.mainList n m

theorem foldReturn_sel (names : List String) (st : AppState) :
    (names.foldl (fun s2 d => returnDepartmentToMainList d s2) st).selectedDepartments =
      st.selectedDepartments := by
  induction names generalizing st with
  | nil => rfl
  | cons d ds ih => rw [List.foldl_cons, ih, returnDept_sel]

theorem foldReturn_groups (names : List String) (st : AppState) :
    (names.foldl (fun s2 d => returnDepartmentToMainList d s2) st).groups = st.groups := by
  induction names generalizing st with
  | nil => rfl
  | cons d ds ih => rw [List.foldl_cons, ih, returnDept_groups]

theorem foldReturn_count (names : List String) (st : AppState) (m : String) :
    (names.foldl (fun s2 d => returnDepartmentToMainList d s2) st).mainList.count m =
      st.mainList.count m + names.count m := by
  induction names generalizing st with
  | nil => simp
  | cons d ds ih =>
    rw [List.foldl_cons, ih, returnDept_count, List.count_cons]
    have : (if (d == m) = true then 1 else 0) = if m = d then 1 else 0 := by
      by_cases h : m = d
      · simp [h]
      · rw [if_neg h, if_neg]
        simp only [beq_iff_eq]
        exact fun hc => h hc.symm
    omega

theorem processReduction_sel (k : Nat) (pgs : List DivGroup) (st : AppState) :
    (processDivisionReduction k pgs st).selectedDepartments = st.selectedDepartments := by
  unfold processDivisionReduction
  generalize pgs.drop k = gs
  induction gs generalizing st with
  | nil => rfl
  | cons g gs ih => rw [List.foldl_cons, ih, foldReturn_sel]

theorem processReduction_groups (k : Nat) (pgs : List DivGroup) (st : AppState) :
    (processDivisionReduction k pgs st).groups = st.groups := by
  unfold processDivisionReduction
  generalize pgs.drop k = gs
  induction gs generalizing st with
  | nil => rfl
  | cons g gs ih => rw [List.foldl_cons, ih, foldReturn_groups]

theorem processReduction_count (k : Nat) (pgs : List DivGroup) (st : AppState) (m : String) :
    (processDivisionReduction k pgs st).mainList.count m =
      st.mainList.count m + ((pgs.drop k).map (fun g => g.departments.count m)).sum := by
  unfold processDivisionReduction
  generalize pgs.drop k = gs
  induction gs generalizing st with
  | nil => simp
  | cons g gs ih =>
    rw [List.foldl_cons, ih, foldReturn_count, List.map_cons, List.sum_cons]
    omega

/-! `resizeDivisionBoxes` characterizations. -/

theorem resize_sel (k : Nat) (st : AppState) :
    (resizeDivisionBoxes k st).selectedDepartments = st.selectedDepartments := by
  unfold resizeDivisionBoxes
  split
  · exact processReduction_sel k st.groups st
  · rfl

theorem resize_length (k : Nat) (st : AppState) :
    (resizeDivisionBoxes k st).groups.length = k := by
  unfold resizeDivisionBoxes
  split <;> simp

theorem resize_getElem? (k : Nat) (st : AppState) {j : Nat} (hj : j < k) :
    (resizeDivisionBoxes k st).groups[j]? =
      some { mkGroup j with
        departments := ((st.groups[j]?).map (fun g => g.departments)).getD [] } := by
  show ((List.range k).map _)[j]? = _
  rw [List.getElem?_map, List.getElem?_range hj]
  rfl

theorem divCount_resize (k : Nat) (st : AppState) (j : Nat) (m : String) :
    divCount j m (resizeDivisionBoxes k st) = if j < k then divCount j m st else 0 := by
  by_cases hj : j < k
  · rw [if_pos hj]
    unfold divCount
    rw [resize_getElem? k st hj]
    rfl
  · rw [if_neg hj]
    refine divCount_of_ge_length ?_
    rw [resize_length]
    omega

theorem resize_count (k : Nat) (st : AppState) (m : String) :
    (resizeDivisionBoxes k st).mainList.count m =
      st.mainList.count m + ((st.groups.drop k).map (fun g => g.departments.count m)).sum := by
  unfold resizeDivisionBoxes
  split
  · exact processReduction_count k st.groups st m
  · rename_i h
    have : st.groups.drop k = [] := List.drop_eq_nil_of_le (by omega)
    rw [this]
    simp

theorem drop_sum_eq_Ico (gs : List DivGroup) (k : Nat) (f : DivGroup → Nat) :
    ((gs.drop k).map f).sum =
      ∑ j ∈ Finset.Ico k gs.length, ((gs[j]?).map f).getD 0 := by
  rw [sum_map_eq_range_sum]
  by_cases hk : k ≤ gs.length
  · rw [Finset.sum_Ico_eq_sum_range]
    rw [List.length_drop]
    refine Finset.sum_congr rfl ?_
    intro j hj
    rw [List.getElem?_drop]
  · have h1 : gs.drop k = [] := List.drop_eq_nil_of_le (by omega)
    have h2 : Finset.Ico k gs.length = ∅ := by
      refine Finset.Ico_eq_empty ?_
      omega
    rw [h1, h2]
    simp

theorem occCount_resize (k : Nat) (st : AppState) (m : String) :
    occCount m (resizeDivisionBoxes k st) = occCount m st := by
  rw [occCount_eq_range, occCount_eq_range, resize_count, resize_length]
  have hdrop : ((st.groups.drop k).map (fun g => g.departments.count m)).sum =
      ∑ j ∈ Finset.Ico k st.groups.length, divCount j m st := by
    rw [drop_sum_eq_Ico]
    refine Finset.sum_congr rfl ?_
    intro j hj
    unfold divCount
    cases h : st.groups[j]? <;> simp [h]
  have hrange : ∑ j ∈ Finset.range k, divCount j m (resizeDivisionBoxes k st) =
      ∑ j ∈ Finset.range (min k st.groups.length), divCount j m st := by
    rw [Finset.sum_congr rfl (fun j hj => divCount_resize k st j m)]
    have hite : ∑ j ∈ Finset.range k, (if j < k then divCount j m st else 0) =
        ∑ j ∈ Finset.range k, divCount j m st := by
      refine Finset.sum_congr rfl ?_
      intro j hj
      rw [if_pos (Finset.mem_range.mp hj)]
    rw [hite]
    by_cases hk : k ≤ st.groups.length
    · rw [min_eq_left hk]
    · rw [min_eq_right (by omega)]
      rw [← Finset.sum_range_add_sum_Ico _ (show st.groups.length ≤ k by omega)]
      have hz : ∑ j ∈ Finset.Ico st.groups.length k, divCount j m st = 0 := by
        refine Finset.sum_eq_zero ?_
        intro j hj
        exact divCount_of_ge_length (Finset.mem_Ico.mp hj).1
      omega
  rw [hrange, hdrop]
  by_cases hk : k ≤ st.groups.length
  · rw [min_eq_left hk]
    rw [Nat.add_assoc, Nat.add_comm (∑ j ∈ Finset.Ico k st.groups.length, divCount j m st),
      Finset.sum_range_add_sum_Ico _ hk]
  · rw [min_eq_right (by omega)]
    have h2 : Finset.Ico k st.groups.length = ∅ := Finset.Ico_eq_empty (by omega)
    rw [h2]
    simp

/-! Initial state and reset. -/

theorem mem_mapDivisions {f : Nat → DivGroup → DivGroup} {k : Nat} {gs : List DivGroup}
    {g : DivGroup} (h : g ∈ mapDivisions f k gs) : ∃ i g0, g0 ∈ gs ∧ g = f i g0 := by
  induction gs generalizing k with
  | nil => exact absurd h (List.not_mem_nil g)
  | cons g0 gs ih =>
    rcases List.mem_cons.mp h with h1 | h1
    · exact ⟨k, g0, List.mem_cons_self g0 gs, h1⟩
    · rcases ih h1 with ⟨i, g1, hg1, hgeq⟩
      exact ⟨i, g1, List.mem_cons_of_mem g0 hg1, hgeq⟩

theorem foldReturn_groups_empty (gs : List DivGroup) (st : AppState)
    (h : ∀ g ∈ gs, g.departments = ([] : List String)) :
    gs.foldl (fun s g => g.departments.foldl (fun s2 d => returnDepartmentToMainList d s2) s)
      st = st := by
  induction gs generalizing st with
  | nil => rfl
  | cons g gs ih =>
    rw [List.foldl_cons, h g (List.mem_cons_self g gs), List.foldl_nil]
    exact ih st (fun g1 hg1 => h g1 (List.mem_cons_of_mem g hg1))

theorem processReduction_of_empty {k : Nat} {pgs : List DivGroup} {st : AppState}
    (h : ∀ g ∈ pgs.drop k, g.departments = ([] : List String)) :
    processDivisionReduction k pgs st = st :=
  foldReturn_groups_empty (pgs.drop k) st h

theorem resize_of_allEmpty {k : Nat} {s : AppState}
    (h : ∀ g ∈ s.groups, g.departments = ([] : List String)) :
    resizeDivisionBoxes k s =
      { mainList := s.mainList, groups := (List.range k).map mkGroup,
        selectedDepartments := s.selectedDepartments } := by
  have hst1 : (if k < s.groups.length then processDivisionReduction k s.groups s else s) = s := by
    split
    · exact processReduction_of_empty (fun g hg => h g (List.mem_of_mem_drop hg))
    · rfl
  have hmap : (List.range k).map (fun i =>
      { mkGroup i with departments := ((s.groups[i]?).map (fun g => g.departments)).getD [] }) =
      (List.range k).map mkGroup := by
    refine List.map_congr_left ?_
    intro i hi
    cases hgi : s.groups[i]? with
    | none => rfl
    | some g =>
      have hd := h g (List.getElem?_mem hgi)
      simp [hgi, hd, mkGroup]
  simp only [resizeDivisionBoxes]
  rw [hst1, hmap]

theorem initState_eq (catalog : List DeptFeature) :
    initState catalog =
      { mainList := catalog.map (fun d => d.nam),
        groups := (List.range 3).map mkGroup,
        selectedDepartments := [] } := by
  unfold initState
  rw [resize_of_allEmpty (by intro g hg; exact absurd hg (List.not_mem_nil g))]
  rfl

theorem reset_eq (catalog : List DeptFeature) (st : AppState) :
    resetToInitialState catalog st = initState catalog := by
  unfold resetToInitialState
  rw [initState_eq, resize_of_allEmpty]
  · rfl
  · intro g hg
    rcases mem_mapDivisions hg with ⟨i, g0, -, hgeq⟩
    rw [hgeq]

theorem occCount_initState (catalog : List DeptFeature) (n : String) :
    occCount n (initState catalog) = (catalog.map (fun d => d.nam)).count n := by
  rw [initState_eq]
  unfold occCount
  show _ + (((List.range 3).map mkGroup).map (fun g => g.departments.count n)).sum = _
  rw [List.map_map]
  have : (List.range 3).map ((fun g => g.departments.count n) ∘ mkGroup) =
      (List.range 3).map (fun _ => 0) := by
    refine List.map_congr_left ?_
    intro i hi
    rfl
  rw [this]
  simp

/-! Per-unit occurrence helpers. -/

theorem occ_sortMainList (m : String) (st : AppState) :
    occCount m (sortMainList st) = occCount m st := by
  unfold occCount
  rw [sortMainList_count, sortMainList_groups]

theorem divCount_le_occ (j : Nat) (m : String) (st : AppState) :
    divCount j m st ≤ occCount m st := by
  by_cases hj : j < st.groups.length
  · rw [occCount_eq_range]
    have hsplit : ∑ i ∈ Finset.range st.groups.length, divCount i m st =
        divCount j m st + ∑ i ∈ (Finset.range st.groups.length).erase j, divCount i m st :=
      (Finset.add_sum_erase _ (fun i => divCount i m st) (Finset.mem_range.mpr hj)).symm
    omega
  · rw [divCount_of_ge_length (Nat.le_of_not_lt hj)]
    exact Nat.zero_le _

theorem occ_eq_of_counts {st st' : AppState} {m : String}
    (hlen : st'.groups.length = st.groups.length)
    (hpool : st'.mainList.count m = st.mainList.count m)
    (hdiv : ∀ j, divCount j m st' = divCount j m st) :
    occCount m st' = occCount m st := by
  rw [occCount_eq_range, occCount_eq_range, hlen, hpool]
  rw [Finset.sum_congr rfl (fun j _ => hdiv j)]

theorem occ_eq_one_pool {st : AppState} {m : String}
    (hpool : st.mainList.count m = 1) (hdiv : ∀ j, divCount j m st = 0) :
    occCount m st = 1 := by
  rw [occCount_eq_range, hpool]
  rw [Finset.sum_congr rfl (fun j _ => hdiv j)]
  simp

theorem occ_eq_one_single {st : AppState} {m : String} {j0 : Nat}
    (hj0 : j0 < st.groups.length) (hpool : st.mainList.count m = 0)
    (hj : divCount j0 m st = 1) (hother : ∀ j, j ≠ j0 → divCount j m st = 0) :
    occCount m st = 1 := by
  rw [occCount_eq_range, hpool]
  have : ∑ j ∈ Finset.range st.groups.length, divCount j m st = divCount j0 m st := by
    refine Finset.sum_eq_single_of_mem j0 (Finset.mem_range.mpr hj0) ?_
    intro b _ hb
    exact hother b hb
  omega

theorem occ_one_at_div {st : AppState} {n : String} {j0 : Nat}
    (hocc : occCount n st = 1) (hj0 : divCount j0 n st ≠ 0) :
    st.mainList.count n = 0 ∧ divCount j0 n st = 1 ∧ ∀ j, j ≠ j0 → divCount j n st = 0 := by
  have hlt : j0 < st.groups.length := by
    by_contra h
    exact hj0 (divCount_of_ge_length (Nat.le_of_not_lt h))
  rw [occCount_eq_range] at hocc
  have hsplit : ∑ j ∈ Finset.range st.groups.length, divCount j n st =
      divCount j0 n st + ∑ j ∈ (Finset.range st.groups.length).erase j0, divCount j n st :=
    (Finset.add_sum_erase _ (fun j => divCount j n st) (Finset.mem_range.mpr hlt)).symm
  have hrest : ∑ j ∈ (Finset.range st.groups.length).erase j0, divCount j n st = 0 := by omega
  have hz : ∀ j ∈ (Finset.range st.groups.length).erase j0, divCount j n st = 0 :=
    (Finset.sum_eq_zero_iff).mp hrest
  refine ⟨by omega, by omega, ?_⟩
  intro j hj
  by_cases hjlen : j < st.groups.length
  · exact hz j (Finset.mem_erase.mpr ⟨hj, Finset.mem_range.mpr hjlen⟩)
  · exact divCount_of_ge_length (Nat.le_of_not_lt hjlen)

theorem occ_one_at_pool {st : AppState} {n : String}
    (hocc : occCount n st = 1) (hdiv : ∀ j, divCount j n st = 0) :
    st.mainList.count n = 1 := by
  rw [occCount_eq_range] at hocc
  rw [Finset.sum_congr rfl (fun j _ => hdiv j)] at hocc
  simpa using hocc

/-! Frame lemmas: operations on a dragged unit touch no other unit. -/

theorem counts_domMove_ne {m n : String} (hmn : m ≠ n) (fromLoc toLoc : Loc) (idx : Nat)
    (st : AppState) :
    (domMove n fromLoc toLoc idx st).mainList.count m = st.mainList.count m ∧
      ∀ j, divCount j m (domMove n fromLoc toLoc idx st) = divCount j m st := by
  cases fromLoc with
  | mainList =>
    cases toLoc with
    | mainList =>
      refine ⟨?_, ?_⟩
      · rw [domMove_mm_mainList, count_insertItem, List.count_erase_of_ne hmn]
        simp [hmn]
      · intro j
        unfold divCount
        rw [domMove_mm_groups]
    | division g =>
      refine ⟨?_, ?_⟩
      · rw [domMove_md_mainList]
      · intro j
        rw [divCount_domMove_md]
        simp [hmn]
  | division i =>
    cases toLoc with
    | mainList =>
      refine ⟨?_, ?_⟩
      · rw [domMove_dm_mainList, count_insertItem]
        simp [hmn]
      · intro j
        rw [divCount_domMove_dm]
        simp [hmn]
    | division g =>
      refine ⟨?_, ?_⟩
      · rw [domMove_dd_mainList]
      · intro j
        rw [divCount_domMove_dd]
        simp [hmn]

theorem counts_handleSingle_ne {m n : String} (hmn : m ≠ n) (toLoc fromLoc : Loc)
    (st : AppState) :
    (handleSingleDepartmentMove n toLoc fromLoc st).mainList.count m = st.mainList.count m ∧
      ∀ j, divCount j m (handleSingleDepartmentMove n toLoc fromLoc st) = divCount j m st := by
  cases toLoc with
  | mainList =>
    refine ⟨handleSingle_toMain_count n m fromLoc st, ?_⟩
    intro j
    rw [divCount_handleSingle_toMain]
    simp [hmn]
  | division g =>
    cases fromLoc with
    | mainList =>
      refine ⟨?_, ?_⟩
      · rw [handleSingle_toDiv_fromMain_count]
        simp [hmn]
      · intro j
        rw [divCount_handleSingle_toDiv_fromMain]
        split <;> simp [hmn]
    | division i =>
      refine ⟨?_, ?_⟩
      · rw [handleSingle_toDiv_fromDiv_count]
      · intro j
        rw [divCount_handleSingle_toDiv_fromDiv]
        split <;> simp [hmn]

theorem occ_moveSelDeps (toLoc : Loc) (s : AppState) (m : String) :
    occCount m (moveSelectedDepartments toLoc s) =
      occCount m (s.selectedDepartments.foldl (moveSelectedOne toLoc) s) := rfl

/-- On a partition state holding a unit exactly once, a complete drag
interaction keeps every cataloged unit's total number of occurrences at
exactly one. -/
theorem occ_handleMove {st : AppState} {toLoc : Loc} (n : String) (idx : Nat)
    (hto : ValidLoc st toLoc) {m : String} (hm : occCount m st = 1) :
    occCount m (handleDepartmentMove n toLoc idx st) = 1 := by
  simp only [handleDepartmentMove]
  have hgoal : ∀ s2 : AppState, occCount m s2 = 1 →
      occCount m (if toLoc = Loc.mainList ∧ locationOf n st ≠ Loc.mainList
        then sortMainList s2 else s2) = 1 := by
    intro s2 h2
    split
    · rw [occ_sortMainList]
      exact h2
    · exact h2
  refine hgoal _ ?_
  set st1 := domMove n (locationOf n st) toLoc idx st with hst1
  have hst1sel : st1.selectedDepartments = st.selectedDepartments := domMove_sel _ _ _ _ _
  have hst1len : st1.groups.length = st.groups.length := domMove_length _ _ _ _ _
  by_cases hbatch : st.selectedDepartments ≠ [] ∧ n ∈ st.selectedDepartments
  · rw [if_pos hbatch]
    rw [occ_moveSelDeps, hst1sel]
    by_cases hmsel : m ∈ st.selectedDepartments
    · cases htl : toLoc with
      | mainList =>
        rcases foldMoveSel_achieve_main hmsel st1 with ⟨h1, h2⟩
        exact occ_eq_one_pool h1 h2
      | division g =>
        rw [htl] at hto
        rcases hto with ⟨hg1, hgK⟩
        have hgK1 : g ≤ st1.groups.length := by omega
        rcases foldMoveSel_achieve_div hmsel hg1 hgK1 with ⟨h1, h2, h3⟩
        have hpred : g - 1 + 1 = g := Nat.succ_pred_eq_of_pos hg1
        have hle1 : divCount (g - 1) m st1 ≤ 1 := by
          by_cases hmn : m = n
          · subst hmn
            rw [hst1, htl]
            cases hloc : locationOf m st with
            | mainList =>
              have hdiv0 := locationOf_eq_mainList_iff.mp hloc
              rw [divCount_domMove_md, hdiv0]
              split <;> omega
            | division i =>
              rcases locationOf_division_inv hloc with ⟨hi1, hiv, -⟩
              rcases occ_one_at_div hm hiv with ⟨-, hone, hzero⟩
              rw [divCount_domMove_dd]
              by_cases hig : i = g
              · subst hig
                rw [if_pos ⟨hpred.symm, rfl⟩]
                split <;> omega
              · have hz : divCount (g - 1) m st = 0 := by
                  refine hzero (g - 1) ?_
                  omega
                rw [if_neg (fun hc => hig (by omega)), hz]
                split <;> omega
          · rcases counts_domMove_ne hmn (locationOf n st) toLoc idx st with ⟨-, hdiv⟩
            rw [hst1, hdiv (g - 1)]
            calc divCount (g - 1) m st ≤ occCount m st := divCount_le_occ _ _ _
            _ = 1 := hm
        have hfin : divCount (g - 1) m
            (st.selectedDepartments.foldl (moveSelectedOne (Loc.division g)) st1) = 1 := by
          rw [h3]
          split <;> omega
        refine occ_eq_one_single ?_ h1 hfin ?_
        · rw [foldMoveSel_length, hst1len]
          omega
        · intro j hj
          refine h2 j ?_
          omega
    · have hmn : m ≠ n := fun h => hmsel (h ▸ hbatch.2)
      rcases foldMoveSel_frame hmsel toLoc st1 with ⟨h1, h2⟩
      rcases counts_domMove_ne hmn (locationOf n st) toLoc idx st with ⟨h3, h4⟩
      refine Eq.trans (occ_eq_of_counts ?_ ?_ ?_) hm
      · rw [foldMoveSel_length, hst1len]
      · rw [h1, hst1, h3]
      · intro j
        rw [h2 j, hst1, h4 j]
  · rw [if_neg hbatch]
    by_cases hmn : m = n
    · subst hmn
      cases htl : toLoc with
      | mainList =>
        have hdall : ∀ j, divCount j m (handleSingleDepartmentMove m Loc.mainList
            (locationOf m st) st1) = 0 := by
          intro j
          rw [divCount_handleSingle_toMain, if_pos rfl]
        have hpool : (handleSingleDepartmentMove m Loc.mainList
            (locationOf m st) st1).mainList.count m = 1 := by
          rw [handleSingle_toMain_count, hst1, htl]
          cases hloc : locationOf m st with
          | mainList =>
            have hdiv0 := locationOf_eq_mainList_iff.mp hloc
            have hp1 := occ_one_at_pool hm hdiv0
            rw [domMove_mm_mainList, count_insertItem, if_pos rfl, List.count_erase_self]
            omega
          | division i =>
            rcases locationOf_division_inv hloc with ⟨hi1, hiv, -⟩
            rcases occ_one_at_div hm hiv with ⟨hp0, -, -⟩
            rw [domMove_dm_mainList, count_insertItem, if_pos rfl, hp0]
        exact occ_eq_one_pool hpool hdall
      | division g =>
        rw [htl] at hto
        rcases hto with ⟨hg1, hgK⟩
        have hpred : g - 1 + 1 = g := Nat.succ_pred_eq_of_pos hg1
        cases hloc : locationOf m st with
        | mainList =>
          have hdiv0 := locationOf_eq_mainList_iff.mp hloc
          have hp1 := occ_one_at_pool hm hdiv0
          have hpool : (handleSingleDepartmentMove m (Loc.division g) Loc.mainList
              st1).mainList.count m = 0 := by
            rw [handleSingle_toDiv_fromMain_count, if_pos rfl]
          have hdg : divCount (g - 1) m (handleSingleDepartmentMove m (Loc.division g)
              Loc.mainList st1) = 1 := by
            rw [divCount_handleSingle_toDiv_fromMain,
              if_pos (by rw [hpred] : some g = some (g - 1 + 1)), hst1, htl, hloc,
              divCount_domMove_md, hdiv0 (g - 1), if_pos ⟨hpred.symm, rfl, by omega⟩]
          have hother : ∀ j, j ≠ g - 1 → divCount j m (handleSingleDepartmentMove m
              (Loc.division g) Loc.mainList st1) = 0 := by
            intro j hj
            rw [divCount_handleSingle_toDiv_fromMain,
              if_neg (fun hc => hj (by injection hc with h1; omega)), if_pos rfl]
          refine occ_eq_one_single ?_ hpool hdg hother
          rw [handleSingle_length, hst1len]
          omega
        | division i =>
          rcases locationOf_division_inv hloc with ⟨hi1, hiv, -⟩
          rcases occ_one_at_div hm hiv with ⟨hp0, hone, hzero⟩
          have hpool : (handleSingleDepartmentMove m (Loc.division g) (Loc.division i)
              st1).mainList.count m = 0 := by
            rw [handleSingle_toDiv_fromDiv_count, hst1, htl, hloc, domMove_dd_mainList, hp0]
          have hdg : divCount (g - 1) m (handleSingleDepartmentMove m (Loc.division g)
              (Loc.division i) st1) = 1 := by
            rw [divCount_handleSingle_toDiv_fromDiv,
              if_pos (by rw [hpred] : some g = some (g - 1 + 1)), hst1, htl, hloc,
              divCount_domMove_dd]
            by_cases hig : i = g
            · subst hig
              rw [if_pos ⟨hpred.symm, rfl⟩, if_pos ⟨hpred.symm, rfl, by omega⟩]
              have heq : i - 1 = i - 1 := rfl
              omega
            · have hz : divCount (g - 1) m st = 0 := by
                refine hzero (g - 1) ?_
                omega
              rw [if_neg (fun hc => hig (by omega)), hz,
                if_pos ⟨hpred.symm, rfl, by omega⟩]
          have hother : ∀ j, j ≠ g - 1 → divCount j m (handleSingleDepartmentMove m
              (Loc.division g) (Loc.division i) st1) = 0 := by
            intro j hj
            rw [divCount_handleSingle_toDiv_fromDiv,
              if_neg (fun hc => hj (by injection hc with h1; omega)), if_pos rfl]
          refine occ_eq_one_single ?_ hpool hdg hother
          rw [handleSingle_length, hst1len]
          omega
    · rcases counts_handleSingle_ne hmn toLoc (locationOf n st) st1 with ⟨h1, h2⟩
      rcases counts_domMove_ne hmn (locationOf n st) toLoc idx st with ⟨h3, h4⟩
      refine Eq.trans (occ_eq_of_counts ?_ ?_ ?_) hm
      · rw [handleSingle_length, hst1len]
      · rw [h1, hst1, h3]
      · intro j
        rw [h2 j, hst1, h4 j]

/-! Concrete fixtures for witnesses and counterexamples. -/

/-- A three-department catalog with point extents, already sorted by
name: A at (0,0), M at (10,10), Z at (2,2). -/
def catAMZ : List DeptFeature :=
  [⟨"A", "06001", 0, 0, 0, 0⟩, ⟨"M", "06002", 10, 10, 10, 10⟩, ⟨"Z", "06003", 2, 2, 2, 2⟩]

/-! Claim C1. -/

/-- C1: for every state reachable from the initial K=3 all-in-pool
state by resize, single moves, batch moves (with selections drawn from
the catalog), and reset, every cataloged unit occurs in exactly one of
pool and divisions 1..K — never twice, never zero times.  Unit identity
in the reference code is the `nam` string, so the catalog names are
assumed distinct (codes are unique and the loaded GeoJSON has one
feature per department). -/
theorem c1_partition_invariant (catalog : List DeptFeature)
    (hnodup : (catalog.map (fun d => d.nam)).Nodup) :
    ∀ st : AppState, Reachable catalog st →
      ∀ n ∈ catalog.map (fun d => d.nam), occCount n st = 1 := by
  intro st hr
  induction hr with
  | init =>
    intro n hn
    rw [occCount_initState]
    exact List.count_eq_one_of_mem hnodup hn
  | resize newK h1 h2 hr ih =>
    intro n hn
    rw [occCount_resize]
    exact ih n hn
  | select sel hsel hr ih =>
    intro n hn
    exact ih n hn
  | drag n0 toLoc idx hn0 hto hr ih =>
    intro n hn
    exact occ_handleMove n0 idx hto (ih n hn)
  | reset hr ih =>
    intro n hn
    rw [reset_eq, occCount_initState]
    exact List.count_eq_one_of_mem hnodup hn

/-- Witness for C1: the concrete catalog has distinct names and after
dragging Z into división 1 from the initial state, Z still occurs
exactly once. -/
theorem c1_partition_invariant_witness :
    occCount "Z" (handleDepartmentMove "Z" (Loc.division 1) 0 (initState catAMZ)) = 1 :=
  c1_partition_invariant catAMZ (by decide) _
    (Reachable.drag "Z" (Loc.division 1) 0 (by decide) (by decide) Reachable.init) "Z" (by decide)

/-! Claim C3. -/

theorem foldAddMain_groups (ds : List String) (s : AppState) :
    (ds.foldl (fun s2 n => if n ∈ s2.mainList then s2
      else { s2 with mainList := s2.mainList ++ [n] }) s).groups = s.groups := by
  induction ds generalizing s with
  | nil => rfl
  | cons d ds ih =>
    rw [List.foldl_cons, ih]
    split <;> rfl

theorem moveSelectedToMainList_groups (s : AppState) :
    (moveSelectedToMainList s).groups = s.groups := by
  unfold moveSelectedToMainList
  rw [sortMainList_groups, foldAddMain_groups]

theorem locationOf_congr_groups {s1 s2 : AppState} (h : s2.groups = s1.groups) (u : String) :
    locationOf u s2 = locationOf u s1 := by
  unfold locationOf
  rw [h]

/-- C3: a successful polygon selection never changes a unit's partition
location.  `finalizePolygon` replaces the Selection and (through
`moveSelectedToMainList`) only appends to and re-sorts the main list;
no division membership changes, so `locationOf` — determined by the
division memberships — is the same for every unit, selected or not. -/
theorem c3_polygon_preserves_location (catalog : List DeptFeature) (pts : List LatLng)
    (st : AppState) (u : String) (h3 : 3 ≤ pts.length) :
    locationOf u (finalizePolygon catalog pts st) = locationOf u st := by
  unfold finalizePolygon
  rw [if_neg (by omega)]
  refine locationOf_congr_groups ?_ u
  show (if selectDepartmentsInPolygon catalog pts ≠ [] then
      moveSelectedToMainList
        { st with selectedDepartments := selectDepartmentsInPolygon catalog pts }
    else { st with selectedDepartments := selectDepartmentsInPolygon catalog pts }).groups
    = st.groups
  split
  · rw [moveSelectedToMainList_groups]
  · rfl

/-- Witness for C3: the square (0,0)-(3,3) selects A and Z from the
concrete catalog, and Z's location is unchanged by the selection. -/
theorem c3_polygon_preserves_location_witness :
    locationOf "Z" (finalizePolygon catAMZ [⟨0, 0⟩, ⟨3, 0⟩, ⟨3, 3⟩, ⟨0, 3⟩]
      (initState catAMZ)) = locationOf "Z" (initState catAMZ) :=
  c3_polygon_preserves_location catAMZ _ _ "Z" (by decide)

/-! Claim C4. -/

theorem intersects_of_contains_center {pb : Bounds} {d : DeptFeature}
    (hlat : d.minLat ≤ d.maxLat) (hlng : d.minLng ≤ d.maxLng)
    (h : pb.containsPoint d.bounds.center = true) : pb.intersects d.bounds = true := by
  unfold Bounds.containsPoint Bounds.center DeptFeature.bounds at h
  unfold Bounds.intersects DeptFeature.bounds
  rw [decide_eq_true_eq] at h ⊢
  obtain ⟨h1, h2, h3, h4⟩ := h
  simp only at h1 h2 h3 h4 ⊢
  refine ⟨by linarith, by linarith, by linarith, by linarith⟩

theorem foldAddMain_sel (ds : List String) (s : AppState) :
    (ds.foldl (fun s2 n => if n ∈ s2.mainList then s2
      else { s2 with mainList := s2.mainList ++ [n] }) s).selectedDepartments =
      s.selectedDepartments := by
  induction ds generalizing s with
  | nil => rfl
  | cons d ds ih =>
    rw [List.foldl_cons, ih]
    split <;> rfl

theorem finalizePolygon_sel (catalog : List DeptFeature) (pts : List LatLng)
    (st : AppState) (h3 : 3 ≤ pts.length) :
    (finalizePolygon catalog pts st).selectedDepartments =
      selectDepartmentsInPolygon catalog pts := by
  unfold finalizePolygon
  rw [if_neg (by omega)]
  show (if selectDepartmentsInPolygon catalog pts ≠ [] then
      moveSelectedToMainList
        { st with selectedDepartments := selectDepartmentsInPolygon catalog pts }
    else { st with selectedDepartments := selectDepartmentsInPolygon catalog pts
      }).selectedDepartments = selectDepartmentsInPolygon catalog pts
  split
  · unfold moveSelectedToMainList
    rw [sortMainList_sel, foldAddMain_sel]
  · rfl

/-- The two-department catalog of the spec scenario: A with centroid
(5,5) and B with centroid (20,20). -/
def catC4 : List DeptFeature :=
  [⟨"A", "06901", 5, 5, 5, 5⟩, ⟨"B", "06902", 20, 20, 20, 20⟩]

/-- C4: with at least 3 points, a unit is selected exactly when its
representative centroid (the center of its Leaflet bounds) lies inside
the axis-aligned bounding rectangle of the polygon's points — the
`intersects` pre-check is implied by the center test — and the result
replaces any prior selection (it does not depend on the previous
Selection).  In the spec scenario the square (0,0)-(10,10) selects
exactly A. -/
theorem c4_selection_is_bbox_center :
    (∀ (catalog : List DeptFeature) (pts : List LatLng) (st : AppState),
      3 ≤ pts.length →
      (∀ d ∈ catalog, d.minLat ≤ d.maxLat ∧ d.minLng ≤ d.maxLng) →
      (finalizePolygon catalog pts st).selectedDepartments =
        (catalog.filter (fun d => (polygonBounds pts).containsPoint d.bounds.center)).map
          (fun d => d.nam)) ∧
    (finalizePolygon catC4 [⟨0, 0⟩, ⟨10, 0⟩, ⟨10, 10⟩, ⟨0, 10⟩]
      (initState catC4)).selectedDepartments = ["A"] := by
  constructor
  · intro catalog pts st h3 hv
    rw [finalizePolygon_sel catalog pts st h3]
    unfold selectDepartmentsInPolygon
    show (catalog.filter (fun d => (polygonBounds pts).intersects d.bounds &&
        (polygonBounds pts).containsPoint d.bounds.center)).map (fun d => d.nam) = _
    congr 1
    refine List.filter_congr ?_
    intro d hd
    rcases hv d hd with ⟨hlat, hlng⟩
    cases hc : (polygonBounds pts).containsPoint d.bounds.center with
    | false => simp [hc]
    | true =>
      rw [intersects_of_contains_center hlat hlng hc]
      simp
  · rw [finalizePolygon_sel _ _ _ (by decide)]
    simp [selectDepartmentsInPolygon, polygonBounds, Bounds.intersects, Bounds.containsPoint,
      Bounds.center, DeptFeature.bounds, catC4, List.filter]
    norm_num [min_def, max_def]

/-- Witness for C4 at a concrete catalog, square, and state. -/
theorem c4_selection_is_bbox_center_witness :
    (finalizePolygon catAMZ [⟨0, 0⟩, ⟨3, 0⟩, ⟨3, 3⟩, ⟨0, 3⟩]
      (initState catAMZ)).selectedDepartments =
      (catAMZ.filter (fun d => (polygonBounds [⟨0, 0⟩, ⟨3, 0⟩, ⟨3, 3⟩, ⟨0, 3⟩]).containsPoint
        d.bounds.center)).map (fun d => d.nam) :=
  c4_selection_is_bbox_center.1 catAMZ _ _ (by decide) (by decide)

/-! Aggregator lemmas (claims C6, C7, C10). -/

/-- Modelled from the spec's words, for the refinement comparison of C6:
the contribution of one member is the value of the attribute-table entry
keyed by the member's catalog code; a unit with no matching entry (no
code, no table row, or no such attribute) contributes nothing. -/
def specAttrValue (datos : AttrTable) (catalog : List DeptFeature) (nombre varName : String) :
    Rat :=
  match obtenerCodigoCdePorNombre catalog nombre with
  | none => 0
  | some c =>
    match lookupAssoc datos c with
    | none => 0
    | some attrs => (lookupAssoc attrs varName).getD 0

theorem lookupAssoc_mem {α : Type} {l : List (String × α)} {k : String} {x : α}
    (h : lookupAssoc l k = some x) : (k, x) ∈ l := by
  unfold lookupAssoc at h
  cases hf : l.find? (fun p => decide (p.1 = k)) with
  | none => rw [hf] at h; exact Option.noConfusion h
  | some pr =>
    rw [hf] at h
    have hmem : pr ∈ l := List.mem_of_find?_eq_some hf
    have hp0 := List.find?_some hf
    have hp : pr.1 = k := by simpa using hp0
    have hx : pr.2 = x := by
      simpa using h
    have hpr : pr = (k, x) := by
      cases pr
      simp only at hp hx
      rw [hp, hx]
    rwa [hpr] at hmem

theorem obtenerCodigo_mem {catalog : List DeptFeature} {nombre c : String}
    (h : obtenerCodigoCdePorNombre catalog nombre = some c) :
    ∃ d ∈ catalog, d.cde = c := by
  unfold obtenerCodigoCdePorNombre at h
  cases hf : catalog.find? (fun d => decide (d.nam = nombre)) with
  | none => rw [hf] at h; exact Option.noConfusion h
  | some d =>
    rw [hf] at h
    refine ⟨d, List.mem_of_find?_eq_some hf, ?_⟩
    simpa using h

theorem specAttrValue_eq_datoDe {datos : AttrTable} {catalog : List DeptFeature}
    (m v : String) (hcde : ∀ d ∈ catalog, d.cde ≠ "") :
    specAttrValue datos catalog m v = (datoDe datos catalog m v).getD 0 := by
  unfold specAttrValue datoDe
  cases ho : obtenerCodigoCdePorNombre catalog m with
  | none => rfl
  | some c =>
    rcases obtenerCodigo_mem ho with ⟨d, hd, hdc⟩
    dsimp only
    rw [if_neg (hdc ▸ hcde d hd)]
    cases lookupAssoc datos c with
    | none => rfl
    | some attrs =>
      cases lookupAssoc attrs v with
      | none => rfl
      | some x => rfl

theorem sumarStep_none {datos : AttrTable} {catalog : List DeptFeature} {v m : String}
    (h : datoDe datos catalog m v = none) (acc : Rat × Nat) :
    sumarStep datos catalog v acc m = acc := by
  unfold sumarStep
  rw [h]

theorem sumarStep_zero {datos : AttrTable} {catalog : List DeptFeature} {v m : String}
    (h : datoDe datos catalog m v = some 0) (acc : Rat × Nat) :
    sumarStep datos catalog v acc m = acc := by
  unfold sumarStep
  rw [h]
  dsimp only
  rw [if_pos rfl]

theorem sumarStep_val {datos : AttrTable} {catalog : List DeptFeature} {v m : String}
    {x : Rat} (h : datoDe datos catalog m v = some x) (hx : x ≠ 0) (acc : Rat × Nat) :
    sumarStep datos catalog v acc m = (acc.1 + x, acc.2 + 1) := by
  unfold sumarStep
  rw [h]
  dsimp only
  rw [if_neg hx]

theorem sumar_fst (datos : AttrTable) (catalog : List DeptFeature) (v : String) :
    ∀ (partidos : List String) (acc : Rat × Nat),
      (partidos.foldl (sumarStep datos catalog v) acc).1 =
        acc.1 + (partidos.map (fun m => (datoDe datos catalog m v).getD 0)).sum := by
  intro partidos
  induction partidos with
  | nil => intro acc; simp
  | cons m ms ih =>
    intro acc
    rw [List.foldl_cons, List.map_cons, List.sum_cons]
    cases hd : datoDe datos catalog m v with
    | none =>
      rw [sumarStep_none hd, ih acc]
      simp
    | some x =>
      by_cases hx : x = 0
      · subst hx
        rw [sumarStep_zero hd, ih acc]
        simp
      · rw [sumarStep_val hd hx, ih (acc.1 + x, acc.2 + 1)]
        show acc.1 + x + _ = _
        rw [add_assoc]
        simp

theorem sumar_snd_le (datos : AttrTable) (catalog : List DeptFeature) (v : String) :
    ∀ (partidos : List String) (acc : Rat × Nat),
      acc.2 ≤ (partidos.foldl (sumarStep datos catalog v) acc).2 := by
  intro partidos
  induction partidos with
  | nil => intro acc; simp
  | cons m ms ih =>
    intro acc
    rw [List.foldl_cons]
    cases hd : datoDe datos catalog m v with
    | none =>
      rw [sumarStep_none hd]
      exact ih acc
    | some x =>
      by_cases hx : x = 0
      · subst hx
        rw [sumarStep_zero hd]
        exact ih acc
      · rw [sumarStep_val hd hx]
        calc acc.2 ≤ acc.2 + 1 := Nat.le_succ _
        _ ≤ _ := ih (acc.1 + x, acc.2 + 1)

theorem sumar_sum_zero_of_snd_eq (datos : AttrTable) (catalog : List DeptFeature)
    (v : String) :
    ∀ (partidos : List String) (acc : Rat × Nat),
      (partidos.foldl (sumarStep datos catalog v) acc).2 = acc.2 →
      (partidos.map (fun m => (datoDe datos catalog m v).getD 0)).sum = 0 := by
  intro partidos
  induction partidos with
  | nil => intro acc _; rfl
  | cons m ms ih =>
    intro acc hsnd
    rw [List.foldl_cons] at hsnd
    rw [List.map_cons, List.sum_cons]
    cases hd : datoDe datos catalog m v with
    | none =>
      rw [sumarStep_none hd] at hsnd
      rw [ih acc hsnd]
      simp
    | some x =>
      by_cases hx : x = 0
      · subst hx
        rw [sumarStep_zero hd] at hsnd
        rw [ih acc hsnd]
        simp
      · rw [sumarStep_val hd hx] at hsnd
        have := sumar_snd_le datos catalog v ms (acc.1 + x, acc.2 + 1)
        simp only at this
        omega

/-- The total the reference code computes equals the spec's sum of the
attribute-table values of the members, provided no catalog code is the
empty string (the only code value JavaScript would treat as falsy). -/
theorem calcularTotal_eq_specSum (pd : PartidosData) (catalog : List DeptFeature)
    (st : AppState) (gid : Nat) (v : String) (hcde : ∀ d ∈ catalog, d.cde ≠ "") :
    calcularTotalDivision (some pd) catalog st gid v =
      ((((getDivision st gid).map (fun g => g.departments)).getD []).map
        (fun m => specAttrValue pd.datos catalog m v)).sum := by
  have hspec : ∀ ms : List String,
      (ms.map (fun m => specAttrValue pd.datos catalog m v)).sum =
      (ms.map (fun m => (datoDe pd.datos catalog m v).getD 0)).sum := by
    intro ms
    congr 1
    refine List.map_congr_left ?_
    intro m _
    exact specAttrValue_eq_datoDe m v hcde
  rw [hspec]
  set ms := ((getDivision st gid).map (fun g => g.departments)).getD [] with hms
  show (if (sumarPartidos pd.datos catalog v ms).2 > 0 then
      (sumarPartidos pd.datos catalog v ms).1 else 0) = _
  unfold sumarPartidos
  split
  · rw [sumar_fst]
    simp
  · rename_i hcnt
    have hz : (ms.foldl (sumarStep pd.datos catalog v) ((0 : Rat), 0)).2 =
        ((0 : Rat), (0 : Nat)).2 := by
      simp only at hcnt ⊢
      omega
    rw [sumar_sum_zero_of_snd_eq pd.datos catalog v ms ((0 : Rat), 0) hz]

theorem datoDe_nonneg {datos : AttrTable} {catalog : List DeptFeature} {m v : String}
    (hnn : ∀ p ∈ datos, ∀ q ∈ p.2, 0 ≤ q.2) :
    0 ≤ (datoDe datos catalog m v).getD 0 := by
  cases hdd : datoDe datos catalog m v with
  | none => simp
  | some x =>
    simp only [Option.getD_some]
    unfold datoDe at hdd
    cases ho : obtenerCodigoCdePorNombre catalog m with
    | none =>
      rw [ho] at hdd
      exact absurd hdd (by simp)
    | some c =>
      rw [ho] at hdd
      dsimp only at hdd
      by_cases hce : c = ""
      · rw [if_pos hce] at hdd
        exact absurd hdd (by simp)
      · rw [if_neg hce] at hdd
        cases hl : lookupAssoc datos c with
        | none =>
          rw [hl] at hdd
          exact absurd hdd (by simp)
        | some attrs =>
          rw [hl] at hdd
          dsimp only at hdd
          exact hnn (c, attrs) (lookupAssoc_mem hl) (v, x) (lookupAssoc_mem hdd)

theorem calcularTotal_nonneg (pd : PartidosData) (catalog : List DeptFeature)
    (st : AppState) (gid : Nat) (v : String)
    (hnn : ∀ p ∈ pd.datos, ∀ q ∈ p.2, 0 ≤ q.2) :
    0 ≤ calcularTotalDivision (some pd) catalog st gid v := by
  show (0 : Rat) ≤ (let partidosEnGrupo := ((getDivision st gid).map (fun g => g.departments)).getD []
        let r := sumarPartidos pd.datos catalog v partidosEnGrupo
        if r.2 > 0 then r.1 else 0)
  set ms := ((getDivision st gid).map (fun g => g.departments)).getD []
  show (0 : Rat) ≤ if (sumarPartidos pd.datos catalog v ms).2 > 0 then
      (sumarPartidos pd.datos catalog v ms).1 else 0
  split
  · unfold sumarPartidos
    rw [sumar_fst]
    simp only [zero_add]
    refine List.sum_nonneg ?_
    intro x hx
    rcases List.mem_map.mp hx with ⟨m, -, hmx⟩
    rw [← hmx]
    exact datoDe_nonneg hnn
  · exact le_refl 0

/-! Claims C6, C7, C10. -/

/-- Catalog of the C6 scenario: units A and B with catalog codes "A"
and "B". -/
def catC6 : List DeptFeature :=
  [⟨"A", "A", 0, 0, 0, 0⟩, ⟨"B", "B", 1, 1, 1, 1⟩]

/-- The C6 attribute table; the spec's `area` is the code's
`superficie` and its `population_total` is `poblacion_total`. -/
def tabC6 : AttrTable :=
  [("A", [("superficie", 100), ("poblacion_total", 50)]),
   ("B", [("superficie", 200), ("poblacion_total", 100)])]

/-- State with A and B dragged into división 1. -/
def stC6 : AppState :=
  handleDepartmentMove "B" (Loc.division 1) 0
    (handleDepartmentMove "A" (Loc.division 1) 0 (initState catC6))

/-- C6: `calcularTotalDivision` sums the attribute-table values keyed by
the members' catalog codes; a member with no matching entry contributes
nothing and raises no error (the total equals the spec-side sum
`specAttrValue`, which assigns 0 to such members).  In the spec
scenario the row for división 1 is count 2, superficie 300, población
150 and density 1/2 (rendered "0.5"). -/
theorem c6_compute_row :
    (∀ (pd : PartidosData) (catalog : List DeptFeature) (st : AppState) (gid : Nat)
      (v : String), (∀ d ∈ catalog, d.cde ≠ "") →
      calcularTotalDivision (some pd) catalog st gid v =
        ((((getDivision st gid).map (fun g => g.departments)).getD []).map
          (fun m => specAttrValue pd.datos catalog m v)).sum) ∧
    computeRow (some ⟨tabC6⟩) catC6 stC6 1 =
      { count := 2, superficie := 300, poblacion := 150, densidad := some (1 / 2) } := by
  constructor
  · intro pd catalog st gid v hcde
    exact calcularTotal_eq_specSum pd catalog st gid v hcde
  · have hmem : (((getDivision stC6 1).map (fun g => g.departments)).getD []) = ["B", "A"] := by
      decide
    have hsup : calcularTotalDivision (some ⟨tabC6⟩) catC6 stC6 1 "superficie" = 300 := by
      show (if (sumarPartidos tabC6 catC6 "superficie"
          (((getDivision stC6 1).map (fun g => g.departments)).getD [])).2 > 0 then
        (sumarPartidos tabC6 catC6 "superficie"
          (((getDivision stC6 1).map (fun g => g.departments)).getD [])).1 else 0) = 300
      rw [hmem]
      unfold sumarPartidos
      rw [List.foldl_cons,
        sumarStep_val (show datoDe tabC6 catC6 "B" "superficie" = some 200 by decide)
          (by norm_num),
        List.foldl_cons,
        sumarStep_val (show datoDe tabC6 catC6 "A" "superficie" = some 100 by decide)
          (by norm_num),
        List.foldl_nil]
      norm_num
    have hpob : calcularTotalDivision (some ⟨tabC6⟩) catC6 stC6 1 "poblacion_total" = 150 := by
      show (if (sumarPartidos tabC6 catC6 "poblacion_total"
          (((getDivision stC6 1).map (fun g => g.departments)).getD [])).2 > 0 then
        (sumarPartidos tabC6 catC6 "poblacion_total"
          (((getDivision stC6 1).map (fun g => g.departments)).getD [])).1 else 0) = 150
      rw [hmem]
      unfold sumarPartidos
      rw [List.foldl_cons,
        sumarStep_val (show datoDe tabC6 catC6 "B" "poblacion_total" = some 100 by decide)
          (by norm_num),
        List.foldl_cons,
        sumarStep_val (show datoDe tabC6 catC6 "A" "poblacion_total" = some 50 by decide)
          (by norm_num),
        List.foldl_nil]
      norm_num
    have hden : calcularDensidadDivision (some ⟨tabC6⟩) catC6 stC6 1 = some (1 / 2) := by
      show (if calcularTotalDivision (some ⟨tabC6⟩) catC6 stC6 1 "superficie" > 0 ∧
          calcularTotalDivision (some ⟨tabC6⟩) catC6 stC6 1 "poblacion_total" > 0 then
        some (calcularTotalDivision (some ⟨tabC6⟩) catC6 stC6 1 "poblacion_total" /
          calcularTotalDivision (some ⟨tabC6⟩) catC6 stC6 1 "superficie") else none) =
        some (1 / 2)
      rw [hsup, hpob, if_pos ⟨by norm_num, by norm_num⟩]
      congr 1
      norm_num
    show ({ count := (((getDivision stC6 1).map (fun g => g.departments)).getD []).length
            superficie := calcularTotalDivision (some ⟨tabC6⟩) catC6 stC6 1 "superficie"
            poblacion := calcularTotalDivision (some ⟨tabC6⟩) catC6 stC6 1 "poblacion_total"
            densidad := calcularDensidadDivision (some ⟨tabC6⟩) catC6 stC6 1 } :
        AggregateRow) = _
    rw [hmem, hsup, hpob, hden]
    rfl

/-- Witness for C6 with the scenario table and catalog. -/
theorem c6_compute_row_witness :
    calcularTotalDivision (some ⟨tabC6⟩) catC6 stC6 1 "superficie" =
      ((((getDivision stC6 1).map (fun g => g.departments)).getD []).map
        (fun m => specAttrValue tabC6 catC6 m "superficie")).sum :=
  c6_compute_row.1 ⟨tabC6⟩ catC6 stC6 1 "superficie" (by decide)

/-- C7: the reported density is población/superficie exactly when both
totals are strictly positive, and the sentinel (`none`, rendered
"0.0") otherwise; with a table of non-negative values the "otherwise"
is precisely superficie = 0 or población = 0, and the division is
evaluated only under the positivity guard. -/
theorem c7_density_guard (pd : PartidosData) (catalog : List DeptFeature) (st : AppState)
    (gid : Nat) (hnn : ∀ p ∈ pd.datos, ∀ q ∈ p.2, 0 ≤ q.2) :
    calcularDensidadDivision (some pd) catalog st gid =
      (if calcularTotalDivision (some pd) catalog st gid "superficie" = 0 ∨
          calcularTotalDivision (some pd) catalog st gid "poblacion_total" = 0 then none
       else some (calcularTotalDivision (some pd) catalog st gid "poblacion_total" /
          calcularTotalDivision (some pd) catalog st gid "superficie")) := by
  have hs := calcularTotal_nonneg pd catalog st gid "superficie" hnn
  have hp := calcularTotal_nonneg pd catalog st gid "poblacion_total" hnn
  show (if calcularTotalDivision (some pd) catalog st gid "superficie" > 0 ∧
      calcularTotalDivision (some pd) catalog st gid "poblacion_total" > 0 then
    some (calcularTotalDivision (some pd) catalog st gid "poblacion_total" /
      calcularTotalDivision (some pd) catalog st gid "superficie") else none) = _
  by_cases h : calcularTotalDivision (some pd) catalog st gid "superficie" > 0 ∧
      calcularTotalDivision (some pd) catalog st gid "poblacion_total" > 0
  · rw [if_pos h, if_neg]
    rintro (hc | hc)
    · exact h.1.ne' hc
    · exact h.2.ne' hc
  · rw [if_neg h]
    have hz : calcularTotalDivision (some pd) catalog st gid "superficie" = 0 ∨
        calcularTotalDivision (some pd) catalog st gid "poblacion_total" = 0 := by
      by_contra hc
      push_neg at hc
      exact h ⟨lt_of_le_of_ne hs (Ne.symm hc.1), lt_of_le_of_ne hp (Ne.symm hc.2)⟩
    rw [if_pos hz]

/-- Witness for C7 at the concrete table and state. -/
theorem c7_density_guard_witness :
    calcularDensidadDivision (some ⟨tabC6⟩) catC6 stC6 1 =
      (if calcularTotalDivision (some ⟨tabC6⟩) catC6 stC6 1 "superficie" = 0 ∨
          calcularTotalDivision (some ⟨tabC6⟩) catC6 stC6 1 "poblacion_total" = 0 then none
       else some (calcularTotalDivision (some ⟨tabC6⟩) catC6 stC6 1 "poblacion_total" /
          calcularTotalDivision (some ⟨tabC6⟩) catC6 stC6 1 "superficie")) :=
  c7_density_guard ⟨tabC6⟩ catC6 stC6 1 (by decide)

/-- Attribute table for C10 with an explicit zero entry. -/
def tabC10 : AttrTable := [("A", [("superficie", 0)])]

/-- C10: a member whose attribute-table entry exists but carries the
value 0 is treated exactly like a member with no entry: dropping it
from the member list leaves the accumulated (total, count) pair
unchanged, and a group whose members all carry 0 (or no data) ends with
`partidosConDatos = 0`, so the total is reported through the no-data
branch as 0. -/
theorem c10_falsy_values_skipped :
    (∀ (datos : AttrTable) (catalog : List DeptFeature) (v : String) (ms1 : List String)
      (m : String) (ms2 : List String), datoDe datos catalog m v = some 0 →
      sumarPartidos datos catalog v (ms1 ++ m :: ms2) =
        sumarPartidos datos catalog v (ms1 ++ ms2)) ∧
    (∀ (datos : AttrTable) (catalog : List DeptFeature) (v : String) (st : AppState)
      (gid : Nat),
      (∀ m ∈ (((getDivision st gid).map (fun g => g.departments)).getD []),
        datoDe datos catalog m v = none ∨ datoDe datos catalog m v = some 0) →
      (sumarPartidos datos catalog v
        (((getDivision st gid).map (fun g => g.departments)).getD [])).2 = 0 ∧
      calcularTotalDivision (some ⟨datos⟩) catalog st gid v = 0) := by
  have hfold : ∀ (datos : AttrTable) (catalog : List DeptFeature) (v : String)
      (ms : List String) (acc : Rat × Nat),
      (∀ m ∈ ms, datoDe datos catalog m v = none ∨ datoDe datos catalog m v = some 0) →
      ms.foldl (sumarStep datos catalog v) acc = acc := by
    intro datos catalog v ms
    induction ms with
    | nil => intro acc _; rfl
    | cons m ms ih =>
      intro acc hz
      rw [List.foldl_cons]
      have hstep : sumarStep datos catalog v acc m = acc := by
        rcases hz m (List.mem_cons_self m ms) with h | h
        · exact sumarStep_none h acc
        · exact sumarStep_zero h acc
      rw [hstep]
      exact ih acc (fun m2 hm2 => hz m2 (List.mem_cons_of_mem m hm2))
  constructor
  · intro datos catalog v ms1 m ms2 hm
    unfold sumarPartidos
    rw [List.foldl_append, List.foldl_append, List.foldl_cons, sumarStep_zero hm]
  · intro datos catalog v st gid hz
    have h2 : (sumarPartidos datos catalog v
        (((getDivision st gid).map (fun g => g.departments)).getD [])).2 = 0 := by
      unfold sumarPartidos
      rw [hfold datos catalog v _ ((0 : Rat), 0) hz]
    refine ⟨h2, ?_⟩
    show (if (sumarPartidos datos catalog v
        (((getDivision st gid).map (fun g => g.departments)).getD [])).2 > 0 then
      (sumarPartidos datos catalog v
        (((getDivision st gid).map (fun g => g.departments)).getD [])).1 else 0) = 0
    rw [if_neg (by omega)]

/-- Witness for C10: dropping the zero-valued member A changes nothing,
and a división whose only data is the zero entry reports 0 through the
no-data branch. -/
theorem c10_falsy_values_skipped_witness :
    sumarPartidos tabC10 catC6 "superficie" (["B"] ++ "A" :: []) =
      sumarPartidos tabC10 catC6 "superficie" (["B"] ++ []) ∧
    calcularTotalDivision (some ⟨tabC10⟩) catC6 stC6 1 "superficie" = 0 :=
  ⟨c10_falsy_values_skipped.1 tabC10 catC6 "superficie" ["B"] "A" [] (by decide),
   (c10_falsy_values_skipped.2 tabC10 catC6 "superficie" stC6 1 (by decide)).2⟩

/-! Claim C2. -/

/-- A state whose división 1 carries a user-edited custom name. -/
def stC2 : AppState := renameGroup 1 "Región Norte" (initState catAMZ)

/-- Counterexample to C2 as stated: resizing with newK = 4 ≥ K = 3 does
not keep división 1's user-edited name — `initializeDivisionBoxes`
rebuilds every box with the default name and never restores
`previousGroups[i].name`. -/
theorem c2_counterexample :
    ((stC2.groups[0]?).map (fun g => g.name) = some "Región Norte") ∧
    (((resizeDivisionBoxes 4 stC2).groups[0]?).map (fun g => g.name) = some "División 1") ∧
    "División 1" ≠ "Región Norte" :=
  ⟨by decide, by decide, by decide⟩

/-- C2 amended: for every surviving división (index ≤ min(K,newK)) the
members are preserved and the color is reassigned to the palette color
of its position — which equals its previous color whenever the state's
colors are the engine-assigned palette colors — but the name is reset
to the default (a user-edited name is lost); every member of a
dissolved división reappears in the pool exactly once. -/
theorem c2_resize_preservation (st : AppState) (k : Nat)
    (hcol : ∀ j, j < st.groups.length →
      (st.groups[j]?).map (fun g => g.color) = some (divisionColors.getD j "#3388ff")) :
    (∀ j g, j < k → st.groups[j]? = some g →
      ((resizeDivisionBoxes k st).groups[j]?).map (fun g2 => g2.departments) =
        some g.departments ∧
      ((resizeDivisionBoxes k st).groups[j]?).map (fun g2 => g2.color) = some g.color ∧
      ((resizeDivisionBoxes k st).groups[j]?).map (fun g2 => g2.name) =
        some ("División " ++ toString (j + 1))) ∧
    (∀ u j g, k ≤ j → st.groups[j]? = some g → u ∈ g.departments → occCount u st = 1 →
      (resizeDivisionBoxes k st).mainList.count u = 1) := by
  constructor
  · intro j g hjk hg
    have hjlen : j < st.groups.length := by
      by_contra h
      rw [List.getElem?_eq_none (Nat.le_of_not_lt h)] at hg
      exact Option.noConfusion hg
    rw [resize_getElem? k st hjk]
    refine ⟨?_, ?_, ?_⟩
    · rw [Option.map_some', hg]
      rfl
    · have hc := hcol j hjlen
      rw [hg, Option.map_some'] at hc
      have hceq : g.color = divisionColors.getD j "#3388ff" := by
        simpa using hc
      rw [Option.map_some']
      show some (mkGroup j).color = some g.color
      rw [hceq]
      rfl
    · rfl
  · intro u j g hkj hg hu hocc
    have hjlen : j < st.groups.length := by
      by_contra h
      rw [List.getElem?_eq_none (Nat.le_of_not_lt h)] at hg
      exact Option.noConfusion hg
    have hdc : divCount j u st ≠ 0 := (mem_div_iff_divCount hg).mp hu
    rcases occ_one_at_div hocc hdc with ⟨hp0, h1, hz⟩
    rw [resize_count, hp0, drop_sum_eq_Ico]
    have hsum : ∑ i ∈ Finset.Ico k st.groups.length,
        ((st.groups[i]?).map (fun g2 => g2.departments.count u)).getD 0 = 1 := by
      have hconv : ∀ i, ((st.groups[i]?).map (fun g2 => g2.departments.count u)).getD 0 =
          divCount i u st := by
        intro i
        unfold divCount
        cases hgi : st.groups[i]? <;> simp [hgi]
      rw [Finset.sum_congr rfl (fun i _ => hconv i)]
      have := Finset.sum_eq_single_of_mem j
        (Finset.mem_Ico.mpr ⟨hkj, hjlen⟩)
        (fun b _ hb => hz b hb)
      rw [this, h1]
    rw [hsum]

/-- Witness for C2 amended: dissolving división 3 (which holds Z) by
resizing to 2 puts Z back in the pool exactly once. -/
theorem c2_resize_preservation_witness :
    (resizeDivisionBoxes 2 (handleDepartmentMove "Z" (Loc.division 3) 0
      (initState catAMZ))).mainList.count "Z" = 1 :=
  (c2_resize_preservation (handleDepartmentMove "Z" (Loc.division 3) 0
      (initState catAMZ)) 2 (by decide)).2 "Z" 2
    ⟨"#2ca02c", ["Z"], "División 3"⟩ (by decide) (by decide) (by decide) (by decide)

/-! Claim C5. -/

/-- C5: dragging a selected unit to división g moves the whole active
Selection there — afterwards every selected unit is located in división
g, removed from the pool and from every other división — and the
Selection is cleared. -/
theorem c5_batch_move (st : AppState) (n : String) (g : Nat) (idx : Nat)
    (hn : n ∈ st.selectedDepartments) (hg1 : 1 ≤ g) (hgK : g ≤ st.groups.length) :
    (∀ m ∈ st.selectedDepartments,
      locationOf m (handleDepartmentMove n (Loc.division g) idx st) = Loc.division g ∧
      (handleDepartmentMove n (Loc.division g) idx st).mainList.count m = 0 ∧
      (∀ j, j ≠ g - 1 →
        divCount j m (handleDepartmentMove n (Loc.division g) idx st) = 0)) ∧
    (handleDepartmentMove n (Loc.division g) idx st).selectedDepartments = [] := by
  have hpred : g - 1 + 1 = g := Nat.succ_pred_eq_of_pos hg1
  have hne : st.selectedDepartments ≠ [] := List.ne_nil_of_mem hn
  have hred : handleDepartmentMove n (Loc.division g) idx st =
      moveSelectedDepartments (Loc.division g)
        (domMove n (locationOf n st) (Loc.division g) idx st) := by
    simp only [handleDepartmentMove]
    rw [if_neg (fun hc : Loc.division g = Loc.mainList ∧ _ => nomatch hc.1), if_pos ⟨hne, hn⟩]
  rw [hred]
  set st1 := domMove n (locationOf n st) (Loc.division g) idx st with hst1
  have hsel1 : st1.selectedDepartments = st.selectedDepartments := by
    rw [hst1]
    exact domMove_sel _ _ _ _ _
  have hlen1 : st1.groups.length = st.groups.length := by
    rw [hst1]
    exact domMove_length _ _ _ _ _
  refine ⟨?_, moveSelDeps_sel _ _⟩
  intro m hm
  have hm1 : m ∈ st1.selectedDepartments := by
    rw [hsel1]
    exact hm
  rcases foldMoveSel_achieve_div hm1 hg1 (show g ≤ st1.groups.length by omega) with ⟨h1, h2, h3⟩
  have hpool : (moveSelectedDepartments (Loc.division g) st1).mainList.count m = 0 := h1
  have hothers : ∀ j, j ≠ g - 1 →
      divCount j m (moveSelectedDepartments (Loc.division g) st1) = 0 := by
    intro j hj
    refine h2 j ?_
    omega
  have hgpos : divCount (g - 1) m (moveSelectedDepartments (Loc.division g) st1) ≠ 0 := by
    show divCount (g - 1) m (st1.selectedDepartments.foldl (moveSelectedOne (Loc.division g))
      st1) ≠ 0
    rw [h3]
    split
    · exact Nat.one_ne_zero
    · assumption
  have hlocd := locationOf_eq_division hgpos (fun i hi => hothers i (by omega))
  rw [hpred] at hlocd
  exact ⟨hlocd, hpool, hothers⟩

/-- Witness for C5: A and Z are selected; dragging A to división 2
moves both there and clears the Selection. -/
theorem c5_batch_move_witness :
    locationOf "Z" (handleDepartmentMove "A" (Loc.division 2) 0
      { initState catAMZ with selectedDepartments := ["A", "Z"] }) = Loc.division 2 ∧
    (handleDepartmentMove "A" (Loc.division 2) 0
      { initState catAMZ with selectedDepartments := ["A", "Z"] }).selectedDepartments = [] :=
  ⟨((c5_batch_move { initState catAMZ with selectedDepartments := ["A", "Z"] } "A" 2 0
      (by decide) (by decide) (by decide)).1 "Z" (by decide)).1,
   (c5_batch_move { initState catAMZ with selectedDepartments := ["A", "Z"] } "A" 2 0
      (by decide) (by decide) (by decide)).2⟩

/-! Claim C9. -/

/-- Two states with the same per-division counts for a unit place it at
the same location. -/
theorem locationOf_eq_of_divCounts {m : String} {s1 s2 : AppState}
    (h : ∀ j, divCount j m s2 = divCount j m s1) :
    locationOf m s2 = locationOf m s1 := by
  cases hl : locationOf m s1 with
  | mainList =>
    rw [locationOf_eq_mainList_iff] at hl ⊢
    intro j
    rw [h j]
    exact hl j
  | division i =>
    rcases locationOf_division_inv hl with ⟨hi1, hiv, hz⟩
    have h1 : divCount (i - 1) m s2 ≠ 0 := by
      rw [h (i - 1)]
      exact hiv
    have h0 : ∀ k, k < i - 1 → divCount k m s2 = 0 := by
      intro k hk
      rw [h k]
      exact hz k hk
    have hres := locationOf_eq_division h1 h0
    rw [hres]
    have : i - 1 + 1 = i := Nat.succ_pred_eq_of_pos hi1
    rw [this]

/-- A drag of an unselected, exactly-once-placed unit to the pool:
Selection and division count are untouched, other units keep their
counts, and the unit ends with pool count 1 and no division occurrence. -/
theorem single_drag_toMain (st : AppState) (n : String) (idx : Nat)
    (hsel : st.selectedDepartments = []) (hocc : occCount n st = 1) :
    (handleDepartmentMove n Loc.mainList idx st).selectedDepartments = [] ∧
    (handleDepartmentMove n Loc.mainList idx st).groups.length = st.groups.length ∧
    (∀ m, m ≠ n →
      (handleDepartmentMove n Loc.mainList idx st).mainList.count m = st.mainList.count m ∧
      ∀ j, divCount j m (handleDepartmentMove n Loc.mainList idx st) = divCount j m st) ∧
    (handleDepartmentMove n Loc.mainList idx st).mainList.count n = 1 ∧
    (∀ j, divCount j n (handleDepartmentMove n Loc.mainList idx st) = 0) := by
  have hred : handleDepartmentMove n Loc.mainList idx st =
      (if Loc.mainList = Loc.mainList ∧ locationOf n st ≠ Loc.mainList then
        sortMainList (handleSingleDepartmentMove n Loc.mainList (locationOf n st)
          (domMove n (locationOf n st) Loc.mainList idx st))
      else handleSingleDepartmentMove n Loc.mainList (locationOf n st)
        (domMove n (locationOf n st) Loc.mainList idx st)) := by
    simp only [handleDepartmentMove]
    rw [if_neg (show ¬(st.selectedDepartments ≠ [] ∧ n ∈ st.selectedDepartments) from
      fun hc => hc.1 hsel)]
  rw [hred]
  cases hloc : locationOf n st with
  | mainList =>
    have hdiv0 : ∀ j, divCount j n st = 0 := locationOf_eq_mainList_iff.mp hloc
    have hp1 : st.mainList.count n = 1 := occ_one_at_pool hocc hdiv0
    rw [if_neg (show ¬(Loc.mainList = Loc.mainList ∧ Loc.mainList ≠ Loc.mainList) from
      fun hc => hc.2 rfl)]
    refine ⟨?_, ?_, ?_, ?_, ?_⟩
    · rw [handleSingle_sel, domMove_sel]
      exact hsel
    · rw [handleSingle_length, domMove_length]
    · intro m hm
      rcases counts_handleSingle_ne hm Loc.mainList Loc.mainList
        (domMove n Loc.mainList Loc.mainList idx st) with ⟨hc1, hd1⟩
      rcases counts_domMove_ne hm Loc.mainList Loc.mainList idx st with ⟨hc2, hd2⟩
      exact ⟨by rw [hc1, hc2], fun j => by rw [hd1 j, hd2 j]⟩
    · rw [handleSingle_toMain_count, domMove_mm_mainList, count_insertItem,
        List.count_erase_self, if_pos rfl]
      omega
    · intro j
      rw [divCount_handleSingle_toMain, if_pos rfl]
  | division i =>
    rcases locationOf_division_inv hloc with ⟨hi1, hiv, -⟩
    rcases occ_one_at_div hocc hiv with ⟨hp0, -, -⟩
    rw [if_pos (show Loc.mainList = Loc.mainList ∧ Loc.division i ≠ Loc.mainList from
      ⟨rfl, fun hc => nomatch hc⟩)]
    refine ⟨?_, ?_, ?_, ?_, ?_⟩
    · rw [sortMainList_sel, handleSingle_sel, domMove_sel]
      exact hsel
    · show (sortMainList _).groups.length = st.groups.length
      rw [sortMainList_groups, handleSingle_length, domMove_length]
    · intro m hm
      rcases counts_handleSingle_ne hm Loc.mainList (Loc.division i)
        (domMove n (Loc.division i) Loc.mainList idx st) with ⟨hc1, hd1⟩
      rcases counts_domMove_ne hm (Loc.division i) Loc.mainList idx st with ⟨hc2, hd2⟩
      refine ⟨?_, ?_⟩
      · rw [sortMainList_count, hc1, hc2]
      · intro j
        rw [divCount_sortMainList, hd1 j, hd2 j]
    · rw [sortMainList_count, handleSingle_toMain_count, domMove_dm_mainList,
        count_insertItem, if_pos rfl, hp0]
    · intro j
      rw [divCount_sortMainList, divCount_handleSingle_toMain, if_pos rfl]

/-- A drag of an unselected, exactly-once-placed unit to división g:
Selection stays empty, other units keep their counts, and the unit ends
with pool count 0, count 1 in división g and 0 in every other división. -/
theorem single_drag_toDiv (st : AppState) (n : String) (g : Nat) (idx : Nat)
    (hsel : st.selectedDepartments = []) (hg1 : 1 ≤ g) (hgK : g ≤ st.groups.length)
    (hocc : occCount n st = 1) :
    (handleDepartmentMove n (Loc.division g) idx st).selectedDepartments = [] ∧
    (handleDepartmentMove n (Loc.division g) idx st).groups.length = st.groups.length ∧
    (∀ m, m ≠ n →
      (handleDepartmentMove n (Loc.division g) idx st).mainList.count m =
        st.mainList.count m ∧
      ∀ j, divCount j m (handleDepartmentMove n (Loc.division g) idx st) = divCount j m st) ∧
    (handleDepartmentMove n (Loc.division g) idx st).mainList.count n = 0 ∧
    divCount (g - 1) n (handleDepartmentMove n (Loc.division g) idx st) = 1 ∧
    (∀ j, j ≠ g - 1 → divCount j n (handleDepartmentMove n (Loc.division g) idx st) = 0) := by
  have hpred : g - 1 + 1 = g := Nat.succ_pred_eq_of_pos hg1
  have hred : handleDepartmentMove n (Loc.division g) idx st =
      handleSingleDepartmentMove n (Loc.division g) (locationOf n st)
        (domMove n (locationOf n st) (Loc.division g) idx st) := by
    simp only [handleDepartmentMove]
    rw [if_neg (show ¬(st.selectedDepartments ≠ [] ∧ n ∈ st.selectedDepartments) from
      fun hc => hc.1 hsel),
      if_neg (fun hc : Loc.division g = Loc.mainList ∧ _ => nomatch hc.1)]
  rw [hred]
  cases hloc : locationOf n st with
  | mainList =>
    have hdiv0 : ∀ j, divCount j n st = 0 := locationOf_eq_mainList_iff.mp hloc
    refine ⟨?_, ?_, ?_, ?_, ?_, ?_⟩
    · rw [handleSingle_sel, domMove_sel]
      exact hsel
    · rw [handleSingle_length, domMove_length]
    · intro m hm
      rcases counts_handleSingle_ne hm (Loc.division g) Loc.mainList
        (domMove n Loc.mainList (Loc.division g) idx st) with ⟨hc1, hd1⟩
      rcases counts_domMove_ne hm Loc.mainList (Loc.division g) idx st with ⟨hc2, hd2⟩
      exact ⟨by rw [hc1, hc2], fun j => by rw [hd1 j, hd2 j]⟩
    · rw [handleSingle_toDiv_fromMain_count, if_pos rfl]
    · rw [divCount_handleSingle_toDiv_fromMain,
        if_pos (show some g = some (g - 1 + 1) from by rw [hpred]),
        divCount_domMove_md,
        if_pos (show g = g - 1 + 1 ∧ n = n ∧ g - 1 < st.groups.length from
          ⟨hpred.symm, rfl, by omega⟩),
        hdiv0 (g - 1)]
    · intro j hj
      rw [divCount_handleSingle_toDiv_fromMain,
        if_neg (show ¬(some g = some (j + 1)) from fun hc => by
          injection hc with h1
          omega),
        if_pos rfl]
  | division i =>
    rcases locationOf_division_inv hloc with ⟨hi1, hiv, -⟩
    rcases occ_one_at_div hocc hiv with ⟨hp0, hi1v, hz⟩
    refine ⟨?_, ?_, ?_, ?_, ?_, ?_⟩
    · rw [handleSingle_sel, domMove_sel]
      exact hsel
    · rw [handleSingle_length, domMove_length]
    · intro m hm
      rcases counts_handleSingle_ne hm (Loc.division g) (Loc.division i)
        (domMove n (Loc.division i) (Loc.division g) idx st) with ⟨hc1, hd1⟩
      rcases counts_domMove_ne hm (Loc.division i) (Loc.division g) idx st with ⟨hc2, hd2⟩
      exact ⟨by rw [hc1, hc2], fun j => by rw [hd1 j, hd2 j]⟩
    · rw [handleSingle_toDiv_fromDiv_count, domMove_dd_mainList]
      exact hp0
    · rw [divCount_handleSingle_toDiv_fromDiv,
        if_pos (show some g = some (g - 1 + 1) from by rw [hpred]),
        divCount_domMove_dd,
        if_pos (show g = g - 1 + 1 ∧ n = n ∧ g - 1 < st.groups.length from
          ⟨hpred.symm, rfl, by omega⟩)]
      by_cases hig : i = g
      · rw [if_pos (show i = g - 1 + 1 ∧ n = n from ⟨by omega, rfl⟩)]
        have : divCount (g - 1) n st = 1 := by
          have : i - 1 = g - 1 := by omega
          rw [← this]
          exact hi1v
        omega
      · rw [if_neg (show ¬(i = g - 1 + 1 ∧ n = n) from fun hc => hig (by omega))]
        have : divCount (g - 1) n st = 0 := hz (g - 1) (by omega)
        omega
    · intro j hj
      rw [divCount_handleSingle_toDiv_fromDiv,
        if_neg (show ¬(some g = some (j + 1)) from fun hc => by
          injection hc with h1
          omega),
        if_pos rfl]

/-- C9: with no active Selection and every unit placed exactly once,
`moveUnit(id, loc)` twice in immediate succession yields the same
partition (same `locationOf` for every unit, same pool counts, same
division counts, same number of divisions) as a single call. -/
theorem c9_move_idempotent (st : AppState) (n : String) (toLoc : Loc) (idx1 idx2 : Nat)
    (hsel : st.selectedDepartments = []) (hto : ValidLoc st toLoc)
    (hocc : occCount n st = 1) :
    (∀ m, locationOf m (handleDepartmentMove n toLoc idx2
        (handleDepartmentMove n toLoc idx1 st)) =
      locationOf m (handleDepartmentMove n toLoc idx1 st)) ∧
    (∀ m, (handleDepartmentMove n toLoc idx2
        (handleDepartmentMove n toLoc idx1 st)).mainList.count m =
      (handleDepartmentMove n toLoc idx1 st).mainList.count m) ∧
    ((handleDepartmentMove n toLoc idx2 (handleDepartmentMove n toLoc idx1 st)).groups.length =
      (handleDepartmentMove n toLoc idx1 st).groups.length) ∧
    (∀ j m, divCount j m (handleDepartmentMove n toLoc idx2
        (handleDepartmentMove n toLoc idx1 st)) =
      divCount j m (handleDepartmentMove n toLoc idx1 st)) := by
  have hocc1 : occCount n (handleDepartmentMove n toLoc idx1 st) = 1 :=
    occ_handleMove n idx1 hto hocc
  cases toLoc with
  | mainList =>
    rcases single_drag_toMain st n idx1 hsel hocc with ⟨hs1, hl1, hf1, hn1, hd1⟩
    rcases single_drag_toMain (handleDepartmentMove n Loc.mainList idx1 st) n idx2 hs1 hocc1
      with ⟨hs2, hl2, hf2, hn2, hd2⟩
    have hdiv : ∀ j m, divCount j m (handleDepartmentMove n Loc.mainList idx2
        (handleDepartmentMove n Loc.mainList idx1 st)) =
        divCount j m (handleDepartmentMove n Loc.mainList idx1 st) := by
      intro j m
      by_cases hm : m = n
      · subst hm
        rw [hd2 j, hd1 j]
      · exact (hf2 m hm).2 j
    refine ⟨?_, ?_, hl2, hdiv⟩
    · intro m
      exact locationOf_eq_of_divCounts (fun j => hdiv j m)
    · intro m
      by_cases hm : m = n
      · subst hm
        rw [hn2, hn1]
      · exact (hf2 m hm).1
  | division g =>
    rcases hto with ⟨hg1, hgK⟩
    rcases single_drag_toDiv st n g idx1 hsel hg1 hgK hocc with ⟨hs1, hl1, hf1, hn1, hg1v, hz1⟩
    have hgK1 : g ≤ (handleDepartmentMove n (Loc.division g) idx1 st).groups.length := by
      rw [hl1]
      exact hgK
    rcases single_drag_toDiv (handleDepartmentMove n (Loc.division g) idx1 st) n g idx2 hs1
      hg1 hgK1 hocc1 with ⟨hs2, hl2, hf2, hn2, hg2v, hz2⟩
    have hdiv : ∀ j m, divCount j m (handleDepartmentMove n (Loc.division g) idx2
        (handleDepartmentMove n (Loc.division g) idx1 st)) =
        divCount j m (handleDepartmentMove n (Loc.division g) idx1 st) := by
      intro j m
      by_cases hm : m = n
      · subst hm
        by_cases hj : j = g - 1
        · subst hj
          rw [hg2v, hg1v]
        · rw [hz2 j hj, hz1 j hj]
      · exact (hf2 m hm).2 j
    refine ⟨?_, ?_, hl2, hdiv⟩
    · intro m
      exact locationOf_eq_of_divCounts (fun j => hdiv j m)
    · intro m
      by_cases hm : m = n
      · subst hm
        rw [hn2, hn1]
      · exact (hf2 m hm).1

/-- Witness for C9: dragging Z to división 1 twice from the initial
state equals a single drag, e.g. for Z's location and A's pool count. -/
theorem c9_move_idempotent_witness :
    locationOf "Z" (handleDepartmentMove "Z" (Loc.division 1) 1
        (handleDepartmentMove "Z" (Loc.division 1) 0 (initState catAMZ))) =
      locationOf "Z" (handleDepartmentMove "Z" (Loc.division 1) 0 (initState catAMZ)) ∧
    (handleDepartmentMove "Z" (Loc.division 1) 1
        (handleDepartmentMove "Z" (Loc.division 1) 0 (initState catAMZ))).mainList.count "A" =
      (handleDepartmentMove "Z" (Loc.division 1) 0 (initState catAMZ)).mainList.count "A" :=
  ⟨(c9_move_idempotent (initState catAMZ) "Z" (Loc.division 1) 0 1 (by decide) (by decide)
      (by decide)).1 "Z",
   (c9_move_idempotent (initState catAMZ) "Z" (Loc.division 1) 0 1 (by decide) (by decide)
      (by decide)).2.1 "A"⟩

/-! Claim C8. -/

theorem lexLe_trans (xs : List Char) : ∀ ys zs, lexLe xs ys = true → lexLe ys zs = true →
    lexLe xs zs = true := by
  induction xs with
  | nil => intro ys zs h1 h2; rfl
  | cons a as ih =>
    intro ys zs h1 h2
    cases ys with
    | nil => simp [lexLe] at h1
    | cons b bs =>
      cases zs with
      | nil => simp [lexLe] at h2
      | cons c cs =>
        simp only [lexLe] at h1 h2 ⊢
        split_ifs at h1 h2 ⊢ <;>
          first
          | rfl
          | omega
          | exact ih bs cs h1 h2

theorem lexLe_total (xs : List Char) : ∀ ys, lexLe xs ys = true ∨ lexLe ys xs = true := by
  induction xs with
  | nil => intro ys; left; rfl
  | cons a as ih =>
    intro ys
    cases ys with
    | nil => right; rfl
    | cons b bs =>
      simp only [lexLe]
      rcases Nat.lt_trichotomy (Char.toNat a) (Char.toNat b) with h | h | h
      · left
        rw [if_pos h]
      · rcases ih bs with h2 | h2
        · left
          rw [if_neg (by omega), if_pos h]
          exact h2
        · right
          rw [if_neg (by omega), if_pos h.symm]
          exact h2
      · right
        rw [if_pos h]

theorem nameLe_transitive (a b c : String) (h1 : nameLe a b = true) (h2 : nameLe b c = true) :
    nameLe a c = true :=
  lexLe_trans _ _ _ h1 h2

theorem nameLe_totalOr (a b : String) : (nameLe a b || nameLe b a) = true := by
  rcases lexLe_total (a.data.map upperChar) (b.data.map upperChar) with h | h <;>
    simp [nameLe, h]

/-- The pool-order invariant C8 claims: the main list enumerates its
names in case-insensitive ascending order. -/
def poolSorted (st : AppState) : Prop :=
  st.mainList.Pairwise (fun a b => nameLe a b = true)

instance (st : AppState) : Decidable (poolSorted st) :=
  inferInstanceAs (Decidable (st.mainList.Pairwise (fun a b => nameLe a b = true)))

theorem poolSorted_sortMainList (st : AppState) : poolSorted (sortMainList st) :=
  List.sorted_mergeSort (fun a b c => nameLe_transitive a b c) nameLe_totalOr st.mainList

theorem poolSorted_returnDept (n : String) (st : AppState) :
    poolSorted (returnDepartmentToMainList n st) :=
  poolSorted_sortMainList { st with mainList := st.mainList ++ [n] }

theorem poolSorted_foldReturn (ds : List String) : ∀ st : AppState, poolSorted st →
    poolSorted (ds.foldl (fun s2 d => returnDepartmentToMainList d s2) st) := by
  induction ds with
  | nil => intro st h; exact h
  | cons d ds ih =>
    intro st h
    exact ih _ (poolSorted_returnDept d st)

theorem poolSorted_foldGroups (gs : List DivGroup) : ∀ st : AppState, poolSorted st →
    poolSorted (gs.foldl
      (fun s g => g.departments.foldl (fun s2 d => returnDepartmentToMainList d s2) s) st) := by
  induction gs with
  | nil => intro st h; exact h
  | cons g gs ih =>
    intro st h
    exact ih _ (poolSorted_foldReturn g.departments st h)

theorem poolSorted_processReduction (k : Nat) (pgs : List DivGroup) {st : AppState}
    (h : poolSorted st) : poolSorted (processDivisionReduction k pgs st) :=
  poolSorted_foldGroups (pgs.drop k) st h

theorem poolSorted_resize (k : Nat) {st : AppState} (h : poolSorted st) :
    poolSorted (resizeDivisionBoxes k st) := by
  show (if k < st.groups.length then processDivisionReduction k st.groups st
    else st).mainList.Pairwise (fun a b => nameLe a b = true)
  split
  · exact poolSorted_processReduction k st.groups h
  · exact h

theorem poolSorted_handleSingle_toMain (n : String) (fl : Loc) (s : AppState) :
    poolSorted (handleSingleDepartmentMove n Loc.mainList fl s) :=
  poolSorted_sortMainList (removeDepartmentFromAllDivisions n none s)

theorem poolSorted_moveUnit {st : AppState} (n : String) (toLoc : Loc) (idx : Nat)
    (hsel : st.selectedDepartments = []) (h : poolSorted st) :
    poolSorted (handleDepartmentMove n toLoc idx st) := by
  have hred : handleDepartmentMove n toLoc idx st =
      (if toLoc = Loc.mainList ∧ locationOf n st ≠ Loc.mainList then
        sortMainList (handleSingleDepartmentMove n toLoc (locationOf n st)
          (domMove n (locationOf n st) toLoc idx st))
      else handleSingleDepartmentMove n toLoc (locationOf n st)
        (domMove n (locationOf n st) toLoc idx st)) := by
    simp only [handleDepartmentMove]
    rw [if_neg (show ¬(st.selectedDepartments ≠ [] ∧ n ∈ st.selectedDepartments) from
      fun hc => hc.1 hsel)]
  rw [hred]
  cases toLoc with
  | mainList =>
    split
    · exact poolSorted_sortMainList _
    · exact poolSorted_handleSingle_toMain n _ _
  | division g =>
    rw [if_neg (fun hc : Loc.division g = Loc.mainList ∧ _ => nomatch hc.1)]
    cases hloc : locationOf n st with
    | mainList =>
      show (removeItems n
        (domMove n Loc.mainList (Loc.division g) idx st).mainList).Pairwise
        (fun a b => nameLe a b = true)
      rw [domMove_md_mainList]
      exact List.Pairwise.sublist (List.filter_sublist _) h
    | division i =>
      show (domMove n (Loc.division i) (Loc.division g) idx st).mainList.Pairwise
        (fun a b => nameLe a b = true)
      rw [domMove_dd_mainList]
      exact h

theorem moveSelOne_div_mainList (g : Nat) (s : AppState) (n : String) :
    (moveSelectedOne (Loc.division g) s n).mainList = removeItems n s.mainList := by
  simp only [moveSelectedOne]
  split
  · rfl
  · split <;> rfl

theorem poolSorted_foldMoveSel_div (g : Nat) (ds : List String) : ∀ s : AppState,
    poolSorted s → poolSorted (ds.foldl (moveSelectedOne (Loc.division g)) s) := by
  induction ds with
  | nil => intro s h; exact h
  | cons d ds ih =>
    intro s h
    refine ih _ ?_
    show (moveSelectedOne (Loc.division g) s d).mainList.Pairwise (fun a b => nameLe a b = true)
    rw [moveSelOne_div_mainList]
    exact List.Pairwise.sublist (List.filter_sublist _) h

theorem poolSorted_moveBatch {st : AppState} (n : String) (g : Nat) (idx : Nat)
    (hn : n ∈ st.selectedDepartments) (h : poolSorted st) :
    poolSorted (handleDepartmentMove n (Loc.division g) idx st) := by
  have hne : st.selectedDepartments ≠ [] := List.ne_nil_of_mem hn
  have hred : handleDepartmentMove n (Loc.division g) idx st =
      moveSelectedDepartments (Loc.division g)
        (domMove n (locationOf n st) (Loc.division g) idx st) := by
    simp only [handleDepartmentMove]
    rw [if_neg (fun hc : Loc.division g = Loc.mainList ∧ _ => nomatch hc.1), if_pos ⟨hne, hn⟩]
  rw [hred]
  have hdm : poolSorted (domMove n (locationOf n st) (Loc.division g) idx st) := by
    show (domMove n (locationOf n st) (Loc.division g) idx st).mainList.Pairwise
      (fun a b => nameLe a b = true)
    cases hloc : locationOf n st with
    | mainList => rw [domMove_md_mainList]; exact h
    | division i => rw [domMove_dd_mainList]; exact h
  exact poolSorted_foldMoveSel_div g _ _ hdm

/-- A reachable state obtained by selecting A and Z and dragging A
within the pool. -/
def stC8 : AppState :=
  handleDepartmentMove "A" Loc.mainList 0
    { initState catAMZ with selectedDepartments := ["A", "Z"] }

/-- Counterexample to C8 as stated: a batch drag whose destination is
the pool appends the selected units at the end without re-sorting (the
deferred `onAdd` sort fires only when the element arrives from another
list), so from the sorted pool [A, M, Z] with A and Z selected,
dragging A within the pool reaches the pool [M, A, Z], which is not in
case-insensitive ascending order. -/
theorem c8_counterexample :
    Reachable catAMZ stC8 ∧ stC8.mainList = ["M", "A", "Z"] ∧ ¬ poolSorted stC8 :=
  ⟨Reachable.drag "A" Loc.mainList 0 (by decide) (by decide)
      (Reachable.select ["A", "Z"] (by decide) Reachable.init),
    by decide, by decide⟩

/-- C8 amended: the pool stays in case-insensitive ascending order
after a resize, after any drag with no active Selection, after a batch
drag into a división, and after a reset with a sorted catalog; the one
uncovered mutation — a batch drag whose destination is the pool —
appends the Selection to the pool unsorted. -/
theorem c8_pool_order (st : AppState) :
    (∀ k, poolSorted st → poolSorted (resizeDivisionBoxes k st)) ∧
    (∀ n toLoc idx, st.selectedDepartments = [] → poolSorted st →
      poolSorted (handleDepartmentMove n toLoc idx st)) ∧
    (∀ n g idx, n ∈ st.selectedDepartments → poolSorted st →
      poolSorted (handleDepartmentMove n (Loc.division g) idx st)) ∧
    (∀ catalog : List DeptFeature,
      (catalog.map (fun d => d.nam)).Pairwise (fun a b => nameLe a b = true) →
      poolSorted (resetToInitialState catalog st)) := by
  refine ⟨?_, ?_, ?_, ?_⟩
  · intro k h
    exact poolSorted_resize k h
  · intro n toLoc idx hsel h
    exact poolSorted_moveUnit n toLoc idx hsel h
  · intro n g idx hn h
    exact poolSorted_moveBatch n g idx hn h
  · intro catalog hcat
    rw [reset_eq]
    show (initState catalog).mainList.Pairwise (fun a b => nameLe a b = true)
    have hm : (initState catalog).mainList = catalog.map (fun d => d.nam) :=
      congrArg AppState.mainList (initState_eq catalog)
    rw [hm]
    exact hcat

/-- Witness for C8 amended: its four conjuncts at the initial state over
the three-department catalog. -/
theorem c8_pool_order_witness :
    poolSorted (resizeDivisionBoxes 2 (initState catAMZ)) ∧
    poolSorted (handleDepartmentMove "Z" (Loc.division 1) 0 (initState catAMZ)) ∧
    poolSorted (handleDepartmentMove "A" (Loc.division 2) 0
      { initState catAMZ with selectedDepartments := ["A", "Z"] }) ∧
    poolSorted (resetToInitialState catAMZ (initState catAMZ)) :=
  ⟨(c8_pool_order (initState catAMZ)).1 2 (by decide),
   (c8_pool_order (initState catAMZ)).2.1 "Z" (Loc.division 1) 0 (by decide) (by decide),
   (c8_pool_order { initState catAMZ with selectedDepartments := ["A", "Z"] }).2.2.1
     "A" 2 0 (by decide) (by decide),
   (c8_pool_order (initState catAMZ)).2.2.2 catAMZ (by decide)⟩

end DesarmaBA
